import Mathlib

/-!
Shallow embedding of the numeric core of the Goldbach tail-replication
scripts (`scripts/replicate_tail.py`, `scripts/harmonic_sum_phi.py`,
`scripts/per_q_envelope.py`) together with proofs about it.

Modelling conventions:
* Python arbitrary-precision integers are `Nat`/`Int`.
* `fractions.Fraction` values are `ℚ` (exact rational arithmetic, as in
  Python).
* `decimal.Decimal` values are modelled as the exact rationals they denote,
  with every arithmetic operation followed by a rounding step to the context
  precision (round-half-even on significant decimal digits), which is the
  documented semantics of Python's `decimal` module.
* Python floats appearing only as carriers of already-computed values
  (`math.log(N)`, `N ** 0.6`, float constants) are idealised as exact
  rationals and, where a claim does not constrain their values, passed as
  parameters.
* Functions that `raise` are modelled with `Except String`.
* The mutable Python list in the sieve is modelled as a `List Nat` updated
  with `List.set`; the loops are `List.foldl` over the exact ranges the
  source iterates.
* The process-global `decimal` context precision is modelled by explicit
  state passing (a `Nat` threaded through the calls that touch it).
-/

namespace Goldbach

/-! ## Integer n-th root — `replicate_tail.int_nth_root_floor` -/

/-- The doubling loop `while hi ** k <= n: hi <<= 1` of
`int_nth_root_floor`.  The side conditions `1 ≤ hi` and `1 ≤ k` (always true
at the call site, where `hi` starts at `1` and `k ≥ 1`) are part of the
guard so that the recursion terminates. -/
def findHi (n k hi : Nat) : Nat :=
  if h : hi ^ k ≤ n ∧ 1 ≤ hi ∧ 1 ≤ k then findHi n k (2 * hi) else hi
  termination_by n + 1 - hi
  decreasing_by
    have h1 : hi ≤ hi ^ k := Nat.le_self_pow (Nat.one_le_iff_ne_zero.mp h.2.2) hi
    omega

/-- The bisection loop `while hi - lo > 1: ...` of `int_nth_root_floor`. -/
def bisect (n k lo hi : Nat) : Nat :=
  if h : 1 < hi - lo then
    let mid := (lo + hi) / 2
    if mid ^ k ≤ n then bisect n k mid hi else bisect n k lo mid
  else lo
  termination_by hi - lo
  decreasing_by
  · omega
  · omega

/-- `int_nth_root_floor` after its argument check: `if n < 2: return n`,
then the doubling loop from `hi = 1` and the bisection from `lo = 0`. -/
def nthRootNat (n k : Nat) : Nat :=
  if n < 2 then n else bisect n k 0 (findHi n k 1)

/-- `replicate_tail.int_nth_root_floor(n, k)`: raises `ValueError` when
`n < 0 or k <= 0`, otherwise returns the bisection result. -/
def int_nth_root_floor (n k : Int) : Except String Int :=
  if n < 0 ∨ k ≤ 0 then .error "n must be >= 0 and k >= 1"
  else .ok (nthRootNat n.toNat k.toNat)

/-! ## Totient sieve — `replicate_tail.sieve_phi` -/

/-- The index list of the inner loop `for k in range(p, Q + 1, p)`:
the multiples `p, 2p, …` of `p` that are at most `Q`. -/
def multiples (p Q : Nat) : List Nat :=
  (List.range' 1 (Q / p)).map (· * p)

/-- The inner loop of the sieve: `phi[k] -= phi[k] // p` at each index `k`
of `ks`, on the Python list modelled as a `List Nat`. -/
def sieveInner (p : Nat) (A : List Nat) (ks : List Nat) : List Nat :=
  ks.foldl (fun B j => B.set j (B.getD j 0 - B.getD j 0 / p)) A

/-- The outer loop of the sieve over the candidate list `ps`
(`for p in range(2, Q + 1)` with the primality test `phi[p] == p`). -/
def sieveOuter (Q : Nat) (A : List Nat) (ps : List Nat) : List Nat :=
  ps.foldl (fun B p => if B.getD p 0 = p then sieveInner p B (multiples p Q) else B) A

/-- `replicate_tail.sieve_phi(Q)` for `Q ≥ 0`: starting from
`phi = list(range(Q + 1))` and running both loops. -/
def sieve_phi (Q : Nat) : List Nat :=
  sieveOuter Q (List.range (Q + 1)) (List.range' 2 (Q - 1))

/-- `replicate_tail.sieve_phi` including its argument check on a possibly
negative input: raises `ValueError` when `Q < 0`. -/
def sieve_phi_checked (Q : Int) : Except String (List Nat) :=
  if Q < 0 then .error "Q must be non-negative"
  else .ok (sieve_phi Q.toNat)

/-! ## Trial-division totient — `phi` of `harmonic_sum_phi.py` and
`per_q_envelope.py` (the two scripts contain the same function, line for
line) -/

/-- The inner loop `while x % p == 0: x //= p`.  The guards `2 ≤ p` and
`0 < x` (always true at the call site) make the recursion terminate. -/
def stripAll (p x : Nat) : Nat :=
  if h : 2 ≤ p ∧ 0 < x ∧ x % p = 0 then stripAll p (x / p) else x
  termination_by x
  decreasing_by exact Nat.div_lt_self h.2.1 h.1

theorem stripAll_le (p x : Nat) : stripAll p x ≤ x := by
  induction x using Nat.strong_induction_on with
  | _ x ih =>
    rw [stripAll]
    split
    · rename_i h
      exact le_trans (ih (x / p) (Nat.div_lt_self h.2.1 h.1)) (Nat.div_le_self x p)
    · exact le_rfl

/-- The body of the trial-division loop: `if x % p == 0:` strip the factor
`p` completely and apply `r -= r // p`, else leave `(x, r)` unchanged. -/
def phiStep (p x r : Nat) : Nat × Nat :=
  if x % p = 0 then (stripAll p x, r - r / p) else (x, r)

theorem phiStep_fst_le (p x r : Nat) : (phiStep p x r).1 ≤ x := by
  unfold phiStep
  split
  · exact stripAll_le p x
  · exact le_rfl

/-- The outer loop `while p * p <= x:` of the trial-division `phi`,
returning the pair `(x, r)` at loop exit.  `p` steps by
`1 if p == 2 else 2`. -/
def phiLoop (x r p : Nat) : Nat × Nat :=
  if h : p * p ≤ x then
    phiLoop (phiStep p x r).1 (phiStep p x r).2 (if p = 2 then p + 1 else p + 2)
  else (x, r)
  termination_by x + 1 - p
  decreasing_by
    have h1 : (phiStep p x r).1 ≤ x := phiStep_fst_le p x r
    have h2 : p ≤ x := by
      rcases Nat.eq_zero_or_pos p with hp | hp
      · omega
      · calc p = p * 1 := (Nat.mul_one p).symm
          _ ≤ p * p := Nat.mul_le_mul_left p hp
          _ ≤ x := h
    split <;> omega

/-- The trial-division `phi(n)` shared by `harmonic_sum_phi.py`,
`per_q_envelope.py` and `major_arc_envelope.py`: `x = r = n; p = 2`, run the
loop, then `if x > 1: r -= r // x`. -/
def phi_td (n : Nat) : Nat :=
  let xr := phiLoop n n 2
  if 1 < xr.1 then xr.2 - xr.2 / xr.1 else xr.2

/-! ## Decimal arithmetic model

Python's `decimal` module implements the General Decimal Arithmetic
specification: the result of every arithmetic operation is the exact
mathematical result rounded to the context precision `prec` (a number of
significant decimal digits), by default with rounding mode
`ROUND_HALF_EVEN`.  We model a `Decimal` value by the exact rational it
denotes and each operation by exact rational arithmetic followed by
`decRound prec`. -/

/-- Fuelled search for the smallest `d` with `b ≤ a * 10 ^ d` (structural
recursion so that concrete decimal computations reduce in the kernel). -/
def findPowAux : Nat → Nat → Nat → Nat
  | 0, _, _ => 0
  | fuel + 1, a, b => if b ≤ a then 0 else 1 + findPowAux fuel (a * 10) b

/-- The smallest `d` with `b ≤ a * 10 ^ d`, for `a ≥ 1` (fuel `b` always
suffices since `10 ^ b > b`). -/
def findPow (a b : Nat) : Nat := findPowAux b a b

/-- The number of decimal digits of `n` (`0` for `n = 0`), by fuelled
structural recursion. -/
def digitsAux : Nat → Nat → Nat
  | 0, _ => 0
  | fuel + 1, n => if n = 0 then 0 else 1 + digitsAux fuel (n / 10)

/-- The adjusted decimal exponent of a positive rational: the unique `e : ℤ`
with `10 ^ e ≤ x < 10 ^ (e + 1)` (junk value `0` for `x ≤ 0`).  For `x ≥ 1`
this is one less than the digit count of `⌊x⌋`; for `0 < x < 1` it is
`-(smallest d with 1 ≤ x * 10 ^ d)`. -/
def decExp (x : ℚ) : ℤ :=
  if x.num ≤ 0 then 0
  else if 1 ≤ x then (digitsAux ⌊x⌋.toNat ⌊x⌋.toNat : ℤ) - 1
  else -(findPow x.num.toNat x.den : ℤ)

/-- Round a rational to the nearest integer, ties to even
(`ROUND_HALF_EVEN`). -/
def rhe (x : ℚ) : ℤ :=
  let f := ⌊x⌋
  let r := x - (f : ℚ)
  if r < 1 / 2 then f
  else if 1 / 2 < r then f + 1
  else if f % 2 = 0 then f else f + 1

/-- Round a positive rational to `prec` significant decimal digits, half to
even. -/
def decRoundPos (prec : Nat) (x : ℚ) : ℚ :=
  let e := decExp x
  (rhe (x * (10 : ℚ) ^ ((prec : ℤ) - 1 - e)) : ℚ) * (10 : ℚ) ^ (e - (prec : ℤ) + 1)

/-- Round a rational to `prec` significant decimal digits, half to even:
the rounding every `decimal` context operation applies to its exact
result. -/
def decRound (prec : Nat) (x : ℚ) : ℚ :=
  if x = 0 then 0
  else if x < 0 then -(decRoundPos prec (-x))
  else decRoundPos prec x

/-! ## The three summation strategies for `S(Q)` -/

/-- The loop range `for q in range(2, Q + 1)` of all three strategies. -/
def sumRange (Q : Nat) : List Nat := List.range' 2 (Q - 1)

/-- `replicate_tail.harmonic_sum_fraction(Q)` (after its `Q ≥ 0` check):
exact rational accumulation of `Fraction(1, q * ph)` over the sieve
table. -/
def harmonic_sum_fraction (Q : Nat) : ℚ :=
  let phi := sieve_phi Q
  (sumRange Q).foldl (fun (S : ℚ) (q : Nat) => S + 1 / ((q : ℚ) * (phi.getD q 0 : ℚ))) 0

/-- `replicate_tail.harmonic_sum_decimal(Q, prec)` (after its `Q ≥ 0`
check): decimal accumulation at `prec` significant digits.  Each step
computes `Decimal(1) / (Decimal(q) * Decimal(ph))` (the product and the
quotient each rounded to `prec` digits) and adds it to the accumulator
(the sum again rounded to `prec` digits). -/
def harmonic_sum_decimal (Q prec : Nat) : ℚ :=
  let phi := sieve_phi Q
  (sumRange Q).foldl
    (fun (S : ℚ) (q : Nat) =>
      decRound prec
        (S + decRound prec (1 / decRound prec ((q : ℚ) * (phi.getD q 0 : ℚ)))))
    0

/-- `harmonic_sum_decimal` with the process-global decimal context
precision made explicit: the call executes `getcontext().prec = prec`
before computing, so whatever the ambient precision was, after the call it
is `prec`. -/
def harmonic_sum_decimal_st (Q prec : Nat) (_ctxPrec : Nat) : ℚ × Nat :=
  (harmonic_sum_decimal Q prec, prec)

/-- `harmonic_sum_phi.harmonic_sum_phi(Q)`: the float-mode sum using the
trial-division `phi`, with the float accumulator idealised as an exact
rational.  The source also skips a term when `phi(q) == 0`
(`if ph: s += ...`). -/
def harmonic_sum_phi (Q : Nat) : ℚ :=
  (sumRange Q).foldl
    (fun (s : ℚ) (q : Nat) => if phi_td q ≠ 0 then s + 1 / ((q : ℚ) * (phi_td q : ℚ)) else s) 0

/-! ## Binary64 float rounding — `sieve_phi_sum` of `replicate_tail.py`

CPython floats are IEEE-754 binary64: every arithmetic operation rounds
its exact rational result to 53 significant binary digits, ties to even.
No overflow or subnormal is reachable in the values of this loop, so the
rounding is the exact base-2 analogue of the `decRound` model above.
The embedding was validated bit-for-bit against CPython (printing
`Fraction(S)` of the float result) at `Q = 0, 1, 2, 3, 5, 10, 37, 100,
257`. -/

/-- The adjusted binary exponent of a positive rational: the unique
`e : ℤ` with `2 ^ e ≤ x < 2 ^ (e + 1)` (junk value `0` for `x ≤ 0`),
via `Nat.log` on `⌊x⌋` for `x ≥ 1` and `Nat.clog` on the ceiling
`⌈x.den / x.num⌉` of the reciprocal for `0 < x < 1`. -/
def exp2 (x : ℚ) : ℤ :=
  if x.num ≤ 0 then 0
  else if 1 ≤ x then (Nat.log 2 ⌊x⌋.toNat : ℤ)
  else -(Nat.clog 2 ((x.den + x.num.toNat - 1) / x.num.toNat) : ℤ)

/-- Round a positive rational to `prec` significant binary digits, half
to even (the base-2 analogue of `decRoundPos`). -/
def binRoundPos (prec : Nat) (x : ℚ) : ℚ :=
  let e := exp2 x
  (rhe (x * (2 : ℚ) ^ ((prec : ℤ) - 1 - e)) : ℚ) * (2 : ℚ) ^ (e - (prec : ℤ) + 1)

/-- Round a rational to `prec` significant binary digits, half to
even. -/
def binRound (prec : Nat) (x : ℚ) : ℚ :=
  if x = 0 then 0
  else if x < 0 then -(binRoundPos prec (-x))
  else binRoundPos prec x

/-- IEEE-754 binary64 rounding of an exact rational value: 53
significant bits, round half to even — the rounding CPython applies to
the exact result of every float operation. -/
def flRound (x : ℚ) : ℚ := binRound 53 x

/-- `replicate_tail.sieve_phi_sum(Q)`: returns `([0, 1], 0.0)` for
`Q < 1`, otherwise the sieve table together with the float accumulation
`S += 1.0 / (q * ph)`: the int product `q * ph` is exact, its
conversion to float rounds (`flRound`, exact in the range reached), the
division rounds, and the addition rounds. -/
def sieve_phi_sum (Q : Nat) : List Nat × ℚ :=
  if Q < 1 then ([0, 1], 0)
  else
    let phi := sieve_phi Q
    (phi,
      (sumRange Q).foldl
        (fun (S : ℚ) (q : Nat) =>
          flRound (S + flRound (1 / flRound ((q : ℚ) * (phi.getD q 0 : ℚ))))) 0)

/-! ## Envelopes — `E_trivial`, `E_uniform` (identical in
`replicate_tail.py`, `per_q_envelope.py` and `major_arc_envelope.py`);
float arithmetic idealised over `ℚ` -/

/-- `E_trivial(N, L) = N * L + N`. -/
def E_trivial (N L : ℚ) : ℚ := N * L + N

/-- `E_uniform(N, L) = N / (160.0 * L)`. -/
def E_uniform (N L : ℚ) : ℚ := N / (160 * L)

/-! ## `replicate_tail.compute_tail_margins` and `main` -/

/-- The result dictionary of `compute_tail_margins` (the nested
`"constants"` entry inlined; `"method"`/`"prec"` strings omitted).  The
float-valued fields are idealised as rationals. -/
structure TailResult where
  K : ℚ
  S_floor : ℚ
  C_W : ℚ
  N : ℚ
  logN : ℚ
  Q : Nat
  R : ℚ
  sum_q : ℚ
  EMA_trivial : ℚ
  EMA_uniform : ℚ
  share : ℚ
  ratio_trivial : ℚ
  ratio_uniform : ℚ
deriving Repr, DecidableEq

/-- The tail of `compute_tail_margins` shared by both methods: the float
formulas after `S_harm` has been computed, with `L = math.log(N)` and
`R = N ** 0.6` (float-computed values) as parameters. -/
def tailMargins (N_int : Int) (K S_floor C_W : ℚ) (L R : ℚ) (Q : Nat)
    (S_harm : ℚ) : TailResult :=
  let Nq : ℚ := (N_int : ℚ)
  let E_t := E_trivial Nq L
  let E_u := E_uniform Nq L
  let EMA_t := C_W / R * E_t * S_harm
  let EMA_u := C_W / R * E_u * S_harm
  let share := S_floor / (8 * K) * Nq / L ^ 2
  { K := K, S_floor := S_floor, C_W := C_W, N := Nq, logN := L, Q := Q,
    R := R, sum_q := S_harm, EMA_trivial := EMA_t, EMA_uniform := EMA_u,
    share := share, ratio_trivial := EMA_t / share,
    ratio_uniform := EMA_u / share }

/-- `compute_tail_margins(N_int, K, S_floor, C_W, method="fraction")`:
raises `ValueError` for non-positive `N`, computes `Q`, the three exact
fraction sums, checks strict monotonicity (raising `AssertionError`
otherwise) and builds the result record. -/
def compute_tail_margins_frac (N_int : Int) (K S_floor C_W : ℚ) (L R : ℚ) :
    Except String TailResult :=
  if N_int ≤ 0 then .error "N must be a positive integer"
  else
    let Q := nthRootNat N_int.toNat 5
    let S_Qm1 := if 1 < Q then harmonic_sum_fraction (Q - 1) else 0
    let S_Q := harmonic_sum_fraction Q
    let S_Qp1 := harmonic_sum_fraction (Q + 1)
    if S_Qm1 < S_Q ∧ S_Q < S_Qp1 then
      .ok (tailMargins N_int K S_floor C_W L R Q S_Q)
    else .error "Harmonic sum is not strictly increasing"

/-- `compute_tail_margins(N_int, K, S_floor, C_W, method="decimal",
prec=prec)` with the global decimal context precision threaded as explicit
state: the body runs inside `with localcontext() as ctx: ctx.prec = prec`,
so the ambient precision is restored on exit no matter what the three
`harmonic_sum_decimal` calls set it to. -/
def compute_tail_margins_dec_st (N_int : Int) (K S_floor C_W : ℚ)
    (prec : Nat) (L R : ℚ) (ctxPrec : Nat) :
    Except String TailResult × Nat :=
  if N_int ≤ 0 then (.error "N must be a positive integer", ctxPrec)
  else
    let Q := nthRootNat N_int.toNat 5
    -- inside the localcontext block; each call returns the context
    -- precision it left behind, the block exit restores ctxPrec
    let st0 := prec
    let s1 := if 1 < Q then harmonic_sum_decimal_st (Q - 1) prec st0
              else (0, st0)
    let s2 := harmonic_sum_decimal_st Q prec s1.2
    let s3 := harmonic_sum_decimal_st (Q + 1) prec s2.2
    if s1.1 < s2.1 ∧ s2.1 < s3.1 then
      (.ok (tailMargins N_int K S_floor C_W L R Q s2.1), ctxPrec)
    else (.error "Harmonic sum is not strictly increasing in decimal mode", ctxPrec)

/-- Decimal-method `compute_tail_margins` as a pure value (the Python
default context precision is 28). -/
def compute_tail_margins_dec (N_int : Int) (K S_floor C_W : ℚ)
    (prec : Nat) (L R : ℚ) : Except String TailResult :=
  (compute_tail_margins_dec_st N_int K S_floor C_W prec L R 28).1

/-- The final exit computation of `replicate_tail.main`:
`ok = (result["ratio_trivial"] < 1e-3) and (result["ratio_uniform"] < 1e-8);
return 0 if ok else 2`. -/
def mainExitCode (result : TailResult) : Nat :=
  if result.ratio_trivial < 1 / 1000 ∧ result.ratio_uniform < 1 / 100000000
  then 0 else 2

/-- The tail of `replicate_tail.main` after argument/constant parsing, in
fraction mode: run `compute_tail_margins` (whose `AssertionError` and
`ValueError` propagate), then the optional baseline assertion — whether the
float comparison `abs(S_value - S_baseline) > 1e-10` fired is abstracted as
the flag `baselineFails`, since it is decided by float arithmetic — and
finally the exit code from the acceptance thresholds. -/
def mainRun (N_int : Int) (K S_floor C_W : ℚ) (L R : ℚ)
    (baselineFails : Bool) : Except String Nat := do
  let result ← compute_tail_margins_frac N_int K S_floor C_W L R
  if baselineFails then throw "S(Q) mismatch" else pure (mainExitCode result)

/-! ## `per_q_envelope.py` — the table-driven per-q envelope -/

/-- A row of the per-q constants table:
`{"q": ..., "form": ..., "c1": ..., "c2": ...}`. -/
structure PerQRow where
  form : String
  c1 : ℚ
  c2 : ℚ

/-- `PerQ.Eq(q, N, L)`: look `q` up in the table (`KeyError(q)` when
missing, modelled as `.error q`) and evaluate the selected closed form. -/
def PerQ_Eq (rows : Nat → Option PerQRow) (q : Nat) (N L : ℚ) :
    Except Nat ℚ :=
  match rows q with
  | none => .error q
  | some r =>
    if r.form = "cNoverlog" then .ok (r.c1 * N / L)
    else if r.form = "cNlog" then .ok (r.c1 * N * L)
    else if r.form = "affine" then .ok (r.c1 * N * L + r.c2 * N)
    else .ok (r.c1 * N / L)

/-- The accumulation loop of `per_q_envelope.__main__`:
for `q` in `range(2, Qcap + 1)`, add `Eq / (q * phi(q))` where `Eq` is the
table value or, on a `KeyError`, the fallback envelope (incrementing the
missing counter). -/
def perqLoop (rows : Nat → Option PerQRow) (Qcap : Nat) (N L : ℚ)
    (fallbackUniform : Bool) : ℚ × Nat :=
  (List.range' 2 (Qcap - 1)).foldl
    (fun (acc : ℚ × Nat) (q : Nat) =>
      match PerQ_Eq rows q N L with
      | .ok Eq => (acc.1 + Eq / ((q : ℚ) * (phi_td q : ℚ)), acc.2)
      | .error _ =>
        (acc.1 + (if fallbackUniform then E_uniform N L else E_trivial N L) /
           ((q : ℚ) * (phi_td q : ℚ)),
         acc.2 + 1))
    (0, 0)

/-- `per_q_envelope.__main__` after the loop: `ema *= CW / R`, returning
`(EMA, missing)`. -/
def perqMain (rows : Nat → Option PerQRow) (Qcap : Nat) (N L : ℚ)
    (fallbackUniform : Bool) (CW R : ℚ) : ℚ × Nat :=
  let em := perqLoop rows Qcap N L fallbackUniform
  (CW / R * em.1, em.2)

/-! ## Correctness of the integer n-th root -/

theorem findHi_gt (n k : Nat) (hk : 1 ≤ k) :
    ∀ m hi, n + 1 - hi ≤ m → 1 ≤ hi → n < (findHi n k hi) ^ k := by
  intro m
  induction m with
  | zero =>
    intro hi hm hhi
    rw [findHi]
    split
    · rename_i h
      exfalso
      have h1 : hi ≤ hi ^ k := Nat.le_self_pow (by omega) hi
      omega
    · rename_i h
      simp only [hhi, hk, and_true, not_le] at h
      exact h
  | succ m ih =>
    intro hi hm hhi
    rw [findHi]
    split
    · rename_i h
      have h1 : hi ≤ hi ^ k := Nat.le_self_pow (by omega) hi
      exact ih (2 * hi) (by omega) (by omega)
    · rename_i h
      simp only [hhi, hk, and_true, not_le] at h
      exact h

theorem bisect_spec (n k : Nat) :
    ∀ m lo hi, hi - lo ≤ m → lo < hi → lo ^ k ≤ n → n < hi ^ k →
      (bisect n k lo hi) ^ k ≤ n ∧ n < (bisect n k lo hi + 1) ^ k := by
  intro m
  induction m with
  | zero =>
    intro lo hi hm hlt hlo hhi
    omega
  | succ m ih =>
    intro lo hi hm hlt hlo hhi
    rw [bisect]
    split
    · rename_i h
      simp only
      split
      · rename_i hmid
        exact ih ((lo + hi) / 2) hi (by omega) (by omega) hmid hhi
      · rename_i hmid
        exact ih lo ((lo + hi) / 2) (by omega) (by omega) hlo (by omega)
    · rename_i h
      have hhi1 : hi = lo + 1 := by omega
      exact ⟨hlo, by rwa [hhi1] at hhi⟩

theorem nthRootNat_spec (n k : Nat) (hk : 1 ≤ k) :
    (nthRootNat n k) ^ k ≤ n ∧ n < (nthRootNat n k + 1) ^ k := by
  unfold nthRootNat
  split
  · rename_i h
    interval_cases n
    · refine ⟨?_, ?_⟩
      · rw [Nat.zero_pow (by omega : 0 < k)]
      · show (0:Nat) < 1 ^ k
        rw [one_pow]
        exact one_pos
    · refine ⟨le_of_eq (one_pow k), ?_⟩
      show (1:Nat) < 2 ^ k
      calc (1:Nat) < 2 ^ 1 := by norm_num
        _ ≤ 2 ^ k := Nat.pow_le_pow_right (by norm_num) hk
  · rename_i h
    have hfind : n < (findHi n k 1) ^ k :=
      findHi_gt n k hk (n + 1 - 1) 1 le_rfl le_rfl
    have hpos : 0 < findHi n k 1 := by
      by_contra hc
      have h0 : findHi n k 1 = 0 := by omega
      rw [h0, Nat.zero_pow (by omega : 0 < k)] at hfind
      omega
    exact bisect_spec n k (findHi n k 1) 0 (findHi n k 1) (by omega) hpos
      (by rw [Nat.zero_pow (by omega : 0 < k)]; exact Nat.zero_le n) hfind

/-- Any two integers satisfying the floor-root characterisation are
equal. -/
theorem nthRoot_unique (n k r s : Nat)
    (hr : r ^ k ≤ n ∧ n < (r + 1) ^ k) (hs : s ^ k ≤ n ∧ n < (s + 1) ^ k) :
    r = s := by
  by_contra hne
  rcases Nat.lt_or_ge r s with hlt | hge
  · have : (r + 1) ^ k ≤ s ^ k := Nat.pow_le_pow_left (by omega) k
    omega
  · have hlt : s < r := by omega
    have : (s + 1) ^ k ≤ r ^ k := Nat.pow_le_pow_left (by omega) k
    omega

/-! ## Correctness of the totient sieve -/

theorem getD_set_self (l : List Nat) (j v : Nat) (hj : j < l.length) :
    (l.set j v).getD j 0 = v := by
  rw [List.getD_eq_getElem?_getD, List.getElem?_set]
  simp [hj]

theorem getD_set_ne (l : List Nat) (j v n : Nat) (h : j ≠ n) :
    (l.set j v).getD n 0 = l.getD n 0 := by
  rw [List.getD_eq_getElem?_getD, List.getElem?_set, if_neg h,
    ← List.getD_eq_getElem?_getD]

theorem getD_range (n i : Nat) (h : i < n) : (List.range n).getD i 0 = i := by
  rw [List.getD_eq_getElem?_getD, List.getElem?_range h]
  rfl

theorem sieveInner_cons (p : Nat) (A : List Nat) (j : Nat) (ks : List Nat) :
    sieveInner p A (j :: ks) =
      sieveInner p (A.set j (A.getD j 0 - A.getD j 0 / p)) ks := rfl

theorem sieveInner_length (p : Nat) (A ks : List Nat) :
    (sieveInner p A ks).length = A.length := by
  induction ks generalizing A with
  | nil => rfl
  | cons j ks ih => rw [sieveInner_cons, ih, List.length_set]

theorem sieveInner_getD_notMem (p : Nat) (A ks : List Nat) (n : Nat)
    (h : n ∉ ks) : (sieveInner p A ks).getD n 0 = A.getD n 0 := by
  induction ks generalizing A with
  | nil => rfl
  | cons j ks ih =>
    rw [sieveInner_cons, ih _ (fun hmem => h (List.mem_cons_of_mem j hmem)),
      getD_set_ne]
    intro hj
    exact h (hj ▸ List.mem_cons_self j ks)

theorem sieveInner_getD_mem (p : Nat) (A ks : List Nat) (n : Nat)
    (hnd : ks.Nodup) (hmem : n ∈ ks) (hlt : n < A.length) :
    (sieveInner p A ks).getD n 0 = A.getD n 0 - A.getD n 0 / p := by
  induction ks generalizing A with
  | nil => cases hmem
  | cons j ks ih =>
    rcases List.mem_cons.mp hmem with rfl | hmem'
    · rw [sieveInner_cons,
        sieveInner_getD_notMem p _ ks n (List.nodup_cons.mp hnd).1,
        getD_set_self _ _ _ hlt]
    · have hne : j ≠ n := by
        intro hj
        exact (List.nodup_cons.mp hnd).1 (hj ▸ hmem')
      rw [sieveInner_cons, ih _ (List.nodup_cons.mp hnd).2 hmem'
          (by rw [List.length_set]; exact hlt),
        getD_set_ne _ _ _ _ hne]

theorem mem_multiples_iff (p Q n : Nat) (hp : 1 ≤ p) :
    n ∈ multiples p Q ↔ p ∣ n ∧ 1 ≤ n ∧ n ≤ Q := by
  unfold multiples
  rw [List.mem_map]
  constructor
  · rintro ⟨i, hi, rfl⟩
    have hi' := List.mem_range'_1.mp hi
    refine ⟨dvd_mul_left p i, ?_, ?_⟩
    · have : 1 * 1 ≤ i * p := Nat.mul_le_mul hi'.1 hp
      omega
    · have : i ≤ Q / p := by omega
      calc i * p ≤ Q / p * p := Nat.mul_le_mul_right p this
        _ ≤ Q := Nat.div_mul_le_self Q p
  · rintro ⟨⟨i, rfl⟩, h1, hQ⟩
    refine ⟨i, List.mem_range'_1.mpr ⟨?_, ?_⟩, mul_comm i p⟩
    · rcases Nat.eq_zero_or_pos i with rfl | hi
      · omega
      · exact hi
    · have : i ≤ Q / p := (Nat.le_div_iff_mul_le hp).mpr (by rw [mul_comm]; omega)
      omega

theorem nodup_multiples (p Q : Nat) (hp : 1 ≤ p) : (multiples p Q).Nodup := by
  unfold multiples
  refine List.Nodup.map ?_ (List.nodup_range' 1 (Q / p))
  intro a b hab
  have : a * p = b * p := hab
  exact Nat.eq_of_mul_eq_mul_right (by omega) this

theorem sieveOuter_cons (Q : Nat) (A : List Nat) (p : Nat) (ps : List Nat) :
    sieveOuter Q A (p :: ps) =
      sieveOuter Q (if A.getD p 0 = p then sieveInner p A (multiples p Q) else A)
        ps := rfl

theorem sieveOuter_length (Q : Nat) (A ps : List Nat) :
    (sieveOuter Q A ps).length = A.length := by
  induction ps generalizing A with
  | nil => rfl
  | cons p ps ih =>
    rw [sieveOuter_cons, ih]
    split
    · exact sieveInner_length p A _
    · rfl

theorem sieveOuter_getD_zero (Q : Nat) (A ps : List Nat)
    (hps : ∀ p ∈ ps, 1 ≤ p) :
    (sieveOuter Q A ps).getD 0 0 = A.getD 0 0 := by
  induction ps generalizing A with
  | nil => rfl
  | cons p ps ih =>
    rw [sieveOuter_cons, ih _ (fun q hq => hps q (List.mem_cons_of_mem p hq))]
    split
    · refine sieveInner_getD_notMem p A _ 0 (fun hmem => ?_)
      have := ((mem_multiples_iff p Q 0 (hps p (List.mem_cons_self p ps))).mp
        hmem).2.1
      omega
    · rfl

/-- Invariant of the sieve's outer loop: once the candidates below `bound`
have been processed, entry `n` of the array holds `m * φ d`, where
`n = d * m` splits `n` into its `bound`-smooth part `d` (all prime factors
below `bound`) and its rough part `m` (all prime factors at least
`bound`). -/
def SieveInv (bound : Nat) (A : List Nat) : Prop :=
  ∀ n, 1 ≤ n → n < A.length →
    ∃ d m, n = d * m ∧
      (∀ q, q.Prime → q ∣ d → q < bound) ∧
      (∀ q, q.Prime → q ∣ m → bound ≤ q) ∧
      A.getD n 0 = m * Nat.totient d

theorem sieveInv_init (Q : Nat) : SieveInv 2 (List.range (Q + 1)) := by
  intro n hn hlen
  rw [List.length_range] at hlen
  refine ⟨1, n, (one_mul n).symm, ?_, ?_, ?_⟩
  · intro q hq hdvd
    exact absurd (Nat.le_of_dvd one_pos hdvd) (by have := hq.two_le; omega)
  · intro q hq hdvd
    exact hq.two_le
  · rw [getD_range _ _ hlen, Nat.totient_one, mul_one]

/-- At a prime `p`, the array entry at index `p` still holds `p` (the
primality test of the sieve fires). -/
theorem sieve_entry_prime (p : Nat) (hp : p.Prime) (A : List Nat)
    (hlen : p < A.length) (hinv : SieveInv p A) : A.getD p 0 = p := by
  obtain ⟨d, m, hdm, hd, _, hval⟩ := hinv p hp.one_lt.le hlen
  have hd1 : d = 1 := by
    rcases hp.eq_one_or_self_of_dvd d (Dvd.intro m hdm.symm) with h | h
    · exact h
    · exfalso
      exact absurd (hd p hp (h ▸ dvd_refl d)) (lt_irrefl p)
  rw [hval, hd1, Nat.totient_one, mul_one]
  rw [hd1, one_mul] at hdm
  exact hdm.symm

/-- At a composite candidate `p ≥ 2`, the array entry at index `p` no longer
holds `p` (the primality test does not fire). -/
theorem sieve_entry_not_prime (p : Nat) (hp2 : 2 ≤ p) (hnp : ¬p.Prime)
    (A : List Nat) (hlen : p < A.length) (hinv : SieveInv p A) :
    A.getD p 0 ≠ p := by
  obtain ⟨d, m, hdm, hd, hm, hval⟩ := hinv p (by omega) hlen
  have hm0 : m ≠ 0 := by rintro rfl; omega
  have hd0 : d ≠ 0 := by rintro rfl; omega
  have hq := Nat.minFac_prime (show p ≠ 1 by omega)
  have hqd : p.minFac ∣ d := by
    rcases (hq.dvd_mul).mp
        (show p.minFac ∣ d * m by rw [← hdm]; exact Nat.minFac_dvd p) with h | h
    · exact h
    · exfalso
      have h1 : p ≤ p.minFac := hm p.minFac hq h
      have h2 : p.minFac ≤ p := Nat.minFac_le (by omega)
      have : p.minFac = p := by omega
      exact hnp (this ▸ hq)
  have hd1 : 1 < d := by
    have h1 : 2 ≤ p.minFac := hq.two_le
    have h2 : p.minFac ≤ d := Nat.le_of_dvd (by omega) hqd
    omega
  have : A.getD p 0 < p := by
    rw [hval, hdm]
    calc m * Nat.totient d < m * d :=
      (Nat.mul_lt_mul_left (by omega)).mpr (Nat.totient_lt d hd1)
    _ = d * m := mul_comm m d
  omega

/-- One pass of the sieve's outer loop preserves the invariant, advancing
the smoothness bound by one. -/
theorem sieveStep_inv (Q p : Nat) (A : List Nat) (hA : A.length = Q + 1)
    (hp2 : 2 ≤ p) (hpQ : p ≤ Q) (hinv : SieveInv p A) :
    SieveInv (p + 1)
      (if A.getD p 0 = p then sieveInner p A (multiples p Q) else A) := by
  by_cases hprime : p.Prime
  · rw [if_pos (sieve_entry_prime p hprime A (by omega) hinv)]
    intro n hn1 hnlen
    rw [sieveInner_length] at hnlen
    obtain ⟨d, m, hdm, hd, hm, hval⟩ := hinv n hn1 hnlen
    have hmn : m ∣ n := Dvd.intro_left d hdm.symm
    by_cases hpn : p ∣ n
    · -- updated entry: the factor p moves from the rough to the smooth part
      have hmem : n ∈ multiples p Q :=
        (mem_multiples_iff p Q n (by omega)).mpr ⟨hpn, hn1, by omega⟩
      have hupd : (sieveInner p A (multiples p Q)).getD n 0 =
          A.getD n 0 - A.getD n 0 / p :=
        sieveInner_getD_mem p A _ n (nodup_multiples p Q (by omega)) hmem
          (by omega)
      have hpd : ¬p ∣ d := fun hdvd => absurd (hd p hprime hdvd) (lt_irrefl p)
      have hpm : p ∣ m := by
        rcases (hprime.dvd_mul).mp (hdm ▸ hpn) with h | h
        · exact absurd h hpd
        · exact h
      have hm0 : m ≠ 0 := by rintro rfl; omega
      obtain ⟨v, m', hpm', hmeq⟩ :=
        Nat.exists_eq_pow_mul_and_not_dvd hm0 p hprime.ne_one
      have hv1 : 1 ≤ v := by
        rcases Nat.eq_zero_or_pos v with rfl | hv
        · rw [hmeq, pow_zero, one_mul] at hpm
          exact absurd hpm hpm'
        · exact hv
      have hppos : 0 < p := by omega
      -- the old value is divisible by p; compute the new value
      have hold : A.getD n 0 = p ^ (v - 1) * (m' * Nat.totient d) * p := by
        rw [hval, hmeq]
        have : p ^ v = p ^ (v - 1) * p := by
          conv_lhs => rw [show v = (v - 1) + 1 by omega]
          rw [pow_succ]
        rw [this]; ring
      have hdiv : A.getD n 0 / p = p ^ (v - 1) * (m' * Nat.totient d) := by
        rw [hold, Nat.mul_div_cancel _ hppos]
      have hnew : A.getD n 0 - A.getD n 0 / p =
          p ^ (v - 1) * (m' * Nat.totient d) * (p - 1) := by
        rw [hdiv, hold, Nat.mul_sub]
        omega
      refine ⟨d * p ^ v, m', ?_, ?_, ?_, ?_⟩
      · rw [hdm, hmeq]; ring
      · intro q hq hdvd
        rcases hq.dvd_mul.mp hdvd with h | h
        · exact lt_trans (hd q hq h) (Nat.lt_succ_self p)
        · have : q = p := (Nat.prime_dvd_prime_iff_eq hq hprime).mp
            (hq.dvd_of_dvd_pow h)
          omega
      · intro q hq hdvd
        have hqm : q ∣ m := hmeq ▸ Dvd.dvd.mul_left hdvd (p ^ v)
        have h1 : p ≤ q := hm q hq hqm
        have h2 : q ≠ p := fun hqp => hpm' (hqp ▸ hdvd)
        omega
      · rw [hupd, hnew]
        have hcop : Nat.Coprime d (p ^ v) :=
          Nat.Coprime.pow_right v ((hprime.coprime_iff_not_dvd.mpr hpd).symm)
        rw [Nat.totient_mul hcop, Nat.totient_prime_pow hprime hv1]
        ring
    · -- untouched entry: p does not divide n
      have hnot : n ∉ multiples p Q := fun hmem =>
        hpn ((mem_multiples_iff p Q n (by omega)).mp hmem).1
      rw [sieveInner_getD_notMem p A _ n hnot]
      refine ⟨d, m, hdm, ?_, ?_, hval⟩
      · intro q hq hdvd
        exact lt_trans (hd q hq hdvd) (Nat.lt_succ_self p)
      · intro q hq hdvd
        have h1 : p ≤ q := hm q hq hdvd
        have h2 : q ≠ p := fun hqp => hpn (hqp ▸ dvd_trans hdvd hmn)
        omega
  · rw [if_neg (sieve_entry_not_prime p hp2 hprime A (by omega) hinv)]
    intro n hn1 hnlen
    obtain ⟨d, m, hdm, hd, hm, hval⟩ := hinv n hn1 hnlen
    refine ⟨d, m, hdm, ?_, ?_, hval⟩
    · intro q hq hdvd
      exact lt_trans (hd q hq hdvd) (Nat.lt_succ_self p)
    · intro q hq hdvd
      have h1 : p ≤ q := hm q hq hdvd
      have h2 : q ≠ p := fun hqp => hprime (hqp ▸ hq)
      omega

theorem sieveOuter_append (Q : Nat) (A : List Nat) (ps qs : List Nat) :
    sieveOuter Q A (ps ++ qs) = sieveOuter Q (sieveOuter Q A ps) qs := by
  unfold sieveOuter
  exact List.foldl_append _ _ ps qs

theorem sieveOuter_singleton (Q : Nat) (A : List Nat) (p : Nat) :
    sieveOuter Q A [p] =
      if A.getD p 0 = p then sieveInner p A (multiples p Q) else A := rfl

/-- After processing the candidates `2, …, P + 1`, the invariant holds with
bound `P + 2`. -/
theorem sieveOuter_inv (Q : Nat) :
    ∀ P, P + 1 ≤ Q →
      SieveInv (P + 2) (sieveOuter Q (List.range (Q + 1)) (List.range' 2 P)) := by
  intro P
  induction P with
  | zero =>
    intro _
    exact sieveInv_init Q
  | succ P ih =>
    intro hPQ
    set A := sieveOuter Q (List.range (Q + 1)) (List.range' 2 P) with hAdef
    have hlen2 : A.length = Q + 1 := by
      rw [hAdef, sieveOuter_length, List.length_range]
    have hinvP : SieveInv (2 + P) A := by
      rw [Nat.add_comm]
      exact ih (by omega)
    have hstep := sieveStep_inv Q (2 + P) A hlen2 (by omega) (by omega) hinvP
    rw [List.range'_concat, sieveOuter_append, ← hAdef, one_mul,
      sieveOuter_singleton, show P + 1 + 2 = 2 + P + 1 by omega]
    exact hstep

theorem sieve_phi_length (Q : Nat) : (sieve_phi Q).length = Q + 1 := by
  rw [sieve_phi, sieveOuter_length, List.length_range]

/-- Entry `n` of `sieve_phi Q` is Euler's totient `φ n`, for every
`n ≤ Q`. -/
theorem sieve_phi_getD (Q n : Nat) (hn : n ≤ Q) :
    (sieve_phi Q).getD n 0 = Nat.totient n := by
  rcases Nat.eq_zero_or_pos n with rfl | hn1
  · rw [sieve_phi, sieveOuter_getD_zero Q _ _
      (fun p hp => by have := (List.mem_range'_1.mp hp).1; omega),
      getD_range _ _ (by omega), Nat.totient_zero]
  · have hQ1 : 1 ≤ Q := le_trans hn1 hn
    have hinv := sieveOuter_inv Q (Q - 1) (by omega)
    rw [show Q - 1 + 2 = Q + 1 by omega] at hinv
    obtain ⟨d, m, hdm, _, hm, hval⟩ :=
      hinv n hn1 (by rw [sieveOuter_length, List.length_range]; omega)
    have hm1 : m = 1 := by
      by_contra hm1
      have hq := Nat.minFac_prime hm1
      have h1 : Q + 1 ≤ m.minFac := hm m.minFac hq (Nat.minFac_dvd m)
      have hm0 : 0 < m := by
        rcases Nat.eq_zero_or_pos m with rfl | h
        · rw [mul_zero] at hdm; omega
        · exact h
      have h2 : m.minFac ≤ m := Nat.minFac_le hm0
      have hmn : m ∣ n := Dvd.intro_left d hdm.symm
      have h3 : m ≤ n := Nat.le_of_dvd hn1 hmn
      omega
    rw [sieve_phi, hval, hm1, one_mul, hdm, hm1, mul_one]

/-! ## Correctness of the trial-division totient -/

theorem stripAll_spec (p : Nat) (hp : 2 ≤ p) :
    ∀ x, 0 < x →
      ∃ v, x = p ^ v * stripAll p x ∧ ¬p ∣ stripAll p x ∧ 0 < stripAll p x := by
  intro x
  induction x using Nat.strong_induction_on with
  | _ x ih =>
    intro hx
    rw [stripAll]
    split
    · rename_i h
      have hdvd : p ∣ x := Nat.dvd_of_mod_eq_zero h.2.2
      have hlt : x / p < x := Nat.div_lt_self hx hp
      have hpos : 0 < x / p := Nat.div_pos (Nat.le_of_dvd hx hdvd) (by omega)
      obtain ⟨v, heq, hnd, hpos'⟩ := ih (x / p) hlt hpos
      refine ⟨v + 1, ?_, hnd, hpos'⟩
      calc x = p * (x / p) := (Nat.mul_div_cancel' hdvd).symm
        _ = p * (p ^ v * stripAll p (x / p)) := by rw [← heq]
        _ = p ^ (v + 1) * stripAll p (x / p) := by ring
    · rename_i h
      refine ⟨0, by rw [pow_zero, one_mul], ?_, hx⟩
      intro hdvd
      obtain ⟨c, rfl⟩ := hdvd
      exact h ⟨hp, hx, Nat.mul_mod_right p c⟩

/-- The final adjustment of `phi` applied to a loop-exit state produces the
totient, given the loop invariant at exit. -/
theorem phi_exit (p x d n : Nat) (hx : 0 < x) (hnd : n = d * x)
    (hloop : ¬p * p ≤ x) (hdp : ∀ q, q.Prime → q ∣ d → q < p)
    (hxp : ∀ q, q.Prime → q ∣ x → p ≤ q) :
    (if 1 < x then x * Nat.totient d - x * Nat.totient d / x
     else x * Nat.totient d) = Nat.totient n := by
  by_cases hx1 : 1 < x
  · rw [if_pos hx1]
    have hxprime : x.Prime := by
      by_contra hnp
      have hsq := Nat.minFac_sq_le_self hx hnp
      have hple : p ≤ x.minFac :=
        hxp x.minFac (Nat.minFac_prime (by omega)) (Nat.minFac_dvd x)
      have : p * p ≤ x.minFac * x.minFac := Nat.mul_le_mul hple hple
      have hsq' : x.minFac * x.minFac ≤ x := by
        calc x.minFac * x.minFac = x.minFac ^ 2 := (sq x.minFac).symm
          _ ≤ x := hsq
      omega
    have hdiv : x * Nat.totient d / x = Nat.totient d :=
      Nat.mul_div_cancel_left _ (by omega)
    have hxd : ¬x ∣ d := by
      intro hdvd
      have h1 : x < p := hdp x hxprime hdvd
      have h2 : p ≤ x := hxp x hxprime dvd_rfl
      omega
    have hcop : Nat.Coprime d x := (hxprime.coprime_iff_not_dvd.mpr hxd).symm
    rw [hdiv, hnd, Nat.totient_mul hcop, Nat.totient_prime hxprime]
    calc x * Nat.totient d - Nat.totient d
        = (x - 1) * Nat.totient d := by rw [Nat.sub_mul, one_mul]
      _ = Nat.totient d * (x - 1) := mul_comm _ _
  · have hx1' : x = 1 := by omega
    rw [if_neg hx1, hx1', one_mul, hnd, hx1', mul_one]

/-- The loop invariant of the trial-division `phi`, carried through to the
final adjustment: a state `(x, r, p)` that decomposes `n = d * x` into a
part `d` whose prime factors are below `p` (already accounted for in
`r = x * φ d`) and a part `x` whose prime factors are at least `p`
ends in `φ n`. -/
theorem phiLoop_totient :
    ∀ fuel x r p d n, x + 1 - p ≤ fuel → 0 < x → 2 ≤ p →
      (p = 2 ∨ p % 2 = 1) →
      n = d * x → r = x * Nat.totient d →
      (∀ q, q.Prime → q ∣ d → q < p) →
      (∀ q, q.Prime → q ∣ x → p ≤ q) →
      (if 1 < (phiLoop x r p).1 then
        (phiLoop x r p).2 - (phiLoop x r p).2 / (phiLoop x r p).1
       else (phiLoop x r p).2) = Nat.totient n := by
  intro fuel
  induction fuel with
  | zero =>
    intro x r p d n hfuel hx hp hpar hnd hr hdp hxp
    rw [phiLoop]
    have hex : ¬p * p ≤ x := by
      intro hle
      have h1 : p * 1 ≤ p * p := Nat.mul_le_mul_left p (by omega)
      omega
    rw [dif_neg hex]
    subst hr
    exact phi_exit p x d n hx hnd hex hdp hxp
  | succ fuel ih =>
    intro x r p d n hfuel hx hp hpar hnd hr hdp hxp
    rw [phiLoop]
    split
    · rename_i hle
      have hpx : p ≤ x := by
        have h1 : p * 1 ≤ p * p := Nat.mul_le_mul_left p (by omega)
        omega
      have hp' : p + 1 ≤ (if p = 2 then p + 1 else p + 2) ∧
          ((if p = 2 then p + 1 else p + 2) = 2 ∨
            (if p = 2 then p + 1 else p + 2) % 2 = 1) ∧
          (∀ q, q.Prime → p ≤ q → q ≠ p →
            (if p = 2 then p + 1 else p + 2) ≤ q) := by
        split
        · rename_i h2
          subst h2
          refine ⟨le_rfl, Or.inr rfl, ?_⟩
          intro q hq hle' hne
          have := hq.two_le
          omega
        · rename_i h2
          have hodd : p % 2 = 1 := by
            rcases hpar with rfl | h
            · exact absurd rfl h2
            · exact h
          refine ⟨by omega, Or.inr (by omega), ?_⟩
          intro q hq hle' hne
          rcases hq.eq_two_or_odd with h | h <;> omega
      by_cases hdvd : x % p = 0
      · -- p divides x: p is prime; strip it and move it to the smooth part
        have hpdx : p ∣ x := Nat.dvd_of_mod_eq_zero hdvd
        have hpprime : p.Prime := by
          rw [Nat.prime_def_minFac]
          refine ⟨hp, ?_⟩
          have hq := Nat.minFac_prime (show p ≠ 1 by omega)
          have h1 : p ≤ p.minFac :=
            hxp p.minFac hq (dvd_trans (Nat.minFac_dvd p) hpdx)
          have h2 : p.minFac ≤ p := Nat.minFac_le (by omega)
          omega
        obtain ⟨v, hxeq, hnds, hspos⟩ := stripAll_spec p hp x hx
        have hv1 : 1 ≤ v := by
          rcases Nat.eq_zero_or_pos v with rfl | hv
          · rw [pow_zero, one_mul] at hxeq
            exact absurd (hxeq ▸ hpdx) hnds
          · exact hv
        have hstep : phiStep p x r = (stripAll p x, r - r / p) := by
          rw [phiStep, if_pos hdvd]
        have hsle : stripAll p x ≤ x := stripAll_le p x
        rw [hstep]
        generalize hsdef : stripAll p x = s at hxeq hnds hspos hsle ⊢
        have hppos : 0 < p := by omega
        have hrY : r = p ^ (v - 1) * (s * Nat.totient d) * p := by
          rw [hr, hxeq]
          conv_lhs => rw [show v = (v - 1) + 1 by omega]
          rw [pow_succ]
          ring
        have hdivr : r / p = p ^ (v - 1) * (s * Nat.totient d) := by
          rw [hrY, Nat.mul_div_cancel _ hppos]
        have hcop : Nat.Coprime d (p ^ v) :=
          Nat.Coprime.pow_right v ((hpprime.coprime_iff_not_dvd.mpr
            (fun hc => absurd (hdp p hpprime hc) (lt_irrefl p))).symm)
        have hrnew : r - r / p = s * Nat.totient (d * p ^ v) := by
          have h1 : r - r / p =
              p ^ (v - 1) * (s * Nat.totient d) * (p - 1) := by
            rw [hdivr]
            conv_lhs => rw [hrY]
            rw [Nat.mul_sub, mul_one]
          have h2 : s * Nat.totient (d * p ^ v) =
              p ^ (v - 1) * (s * Nat.totient d) * (p - 1) := by
            rw [Nat.totient_mul hcop, Nat.totient_prime_pow hpprime hv1]
            ring
          rw [h1, h2]
        apply ih s (r - r / p) _ (d * p ^ v) n
        · omega
        · exact hspos
        · omega
        · exact hp'.2.1
        · rw [hnd, hxeq]; ring
        · exact hrnew
        · intro q hq hqd
          rcases hq.dvd_mul.mp hqd with h | h
          · have := hdp q hq h
            omega
          · have hqp : q = p := (Nat.prime_dvd_prime_iff_eq hq hpprime).mp
              (hq.dvd_of_dvd_pow h)
            omega
        · intro q hq hqd
          have hqx : q ∣ x := by
            rw [hxeq]
            exact Dvd.dvd.mul_left hqd (p ^ v)
          exact hp'.2.2 q hq (hxp q hq hqx) (fun hc => hnds (hc ▸ hqd))
      · -- p does not divide x: state unchanged, advance p
        have hstep : phiStep p x r = (x, r) := by
          rw [phiStep, if_neg hdvd]
        rw [hstep]
        apply ih x r _ d n
        · omega
        · exact hx
        · omega
        · exact hp'.2.1
        · exact hnd
        · exact hr
        · intro q hq hqd
          have := hdp q hq hqd
          omega
        · intro q hq hqd
          refine hp'.2.2 q hq (hxp q hq hqd) (fun hc => ?_)
          subst hc
          obtain ⟨c, rfl⟩ := hqd
          exact hdvd (Nat.mul_mod_right q c)
    · rename_i hex
      subst hr
      exact phi_exit p x d n hx hnd hex hdp hxp

/-- The trial-division `phi` computes Euler's totient. -/
theorem phi_td_eq_totient (n : Nat) : phi_td n = Nat.totient n := by
  rcases Nat.eq_zero_or_pos n with rfl | hn
  · have h0 : phiLoop 0 0 2 = (0, 0) := by
      rw [phiLoop]
      norm_num
    rw [phi_td]
    rw [h0]
    norm_num
  · have := phiLoop_totient (n + 1) n n 2 1 n (by omega) hn le_rfl (Or.inl rfl)
      (by rw [one_mul]) (by rw [Nat.totient_one, mul_one])
      (fun q hq hqd => absurd (Nat.le_of_dvd one_pos hqd)
        (by have := hq.two_le; omega))
      (fun q hq _ => hq.two_le)
    rw [phi_td]
    exact this

/-! ## The exact fraction sum as a closed formula, and its monotonicity -/

theorem foldl_add_eq (f : Nat → ℚ) :
    ∀ (L : List Nat) (a : ℚ),
      L.foldl (fun S q => S + f q) a = a + (L.map f).sum := by
  intro L
  induction L with
  | nil => intro a; simp
  | cons x L ih =>
    intro a
    simp only [List.foldl_cons, List.map_cons, List.sum_cons, ih, add_assoc]

theorem sum_map_range' (f : Nat → ℚ) (s : Nat) :
    ∀ n, ((List.range' s n).map f).sum = ∑ q ∈ Finset.Ico s (s + n), f q := by
  intro n
  induction n with
  | zero => simp
  | succ n ih =>
    rw [List.range'_concat, List.map_append, List.sum_append, ih, one_mul,
      show s + (n + 1) = s + n + 1 by omega,
      Finset.sum_Ico_succ_top (by omega : s ≤ s + n)]
    simp

/-- `harmonic_sum_fraction Q` is exactly `∑_{q = 2}^{Q} 1 / (q φ(q))`. -/
theorem harmonic_sum_fraction_eq (Q : Nat) :
    harmonic_sum_fraction Q =
      ∑ q ∈ Finset.Icc 2 Q, 1 / ((q : ℚ) * (Nat.totient q : ℚ)) := by
  unfold harmonic_sum_fraction sumRange
  rw [foldl_add_eq, zero_add,
    List.map_congr_left (g := fun (q : Nat) => 1 / ((q : ℚ) * (Nat.totient q : ℚ)))
      (fun q hq => by
        have hq' := List.mem_range'_1.mp hq
        rw [sieve_phi_getD Q q (by omega)]),
    sum_map_range']
  rcases Nat.eq_zero_or_pos Q with rfl | hQ
  · norm_num
  · congr 1
    rw [show 2 + (Q - 1) = Q + 1 by omega]
    exact Nat.Ico_succ_right 2 Q

theorem harmonic_term_pos (q : Nat) (hq : 1 ≤ q) :
    0 < 1 / ((q : ℚ) * (Nat.totient q : ℚ)) := by
  have h1 : (0 : ℚ) < (q : ℚ) := by exact_mod_cast hq
  have h2 : (0 : ℚ) < (Nat.totient q : ℚ) := by
    exact_mod_cast Nat.totient_pos.mpr (by omega)
  exact div_pos one_pos (mul_pos h1 h2)

/-- Adding the next term: `S(Q + 1) = S(Q) + 1 / ((Q+1) φ(Q+1))` for
`Q ≥ 1`. -/
theorem harmonic_sum_fraction_succ (Q : Nat) (hQ : 1 ≤ Q) :
    harmonic_sum_fraction (Q + 1) =
      harmonic_sum_fraction Q +
        1 / (((Q + 1 : Nat) : ℚ) * (Nat.totient (Q + 1) : ℚ)) := by
  rw [harmonic_sum_fraction_eq, harmonic_sum_fraction_eq,
    Finset.sum_Icc_succ_top (by omega : 2 ≤ Q + 1)]

/-- The exact fraction sum is strictly increasing from `Q = 1` on. -/
theorem harmonic_sum_fraction_lt_succ (Q : Nat) (hQ : 1 ≤ Q) :
    harmonic_sum_fraction Q < harmonic_sum_fraction (Q + 1) := by
  rw [harmonic_sum_fraction_succ Q hQ]
  have := harmonic_term_pos (Q + 1) (by omega)
  linarith

/-! ## Evaluation lemmas for the decimal rounding model -/

theorem digitsAux_zero : ∀ fuel, digitsAux fuel 0 = 0
  | 0 => rfl
  | fuel + 1 => by rw [digitsAux]; simp

theorem digitsAux_spec :
    ∀ fuel m, 1 ≤ m → m ≤ fuel →
      1 ≤ digitsAux fuel m ∧ 10 ^ (digitsAux fuel m - 1) ≤ m ∧
        m < 10 ^ digitsAux fuel m := by
  intro fuel
  induction fuel with
  | zero => intro m h1 h2; omega
  | succ fuel ih =>
    intro m h1 h2
    rw [digitsAux, if_neg (by omega)]
    rcases Nat.lt_or_ge m 10 with hlt | hge
    · have hdiv : m / 10 = 0 := Nat.div_eq_of_lt hlt
      rw [hdiv, digitsAux_zero]
      norm_num
      omega
    · have hm10 : 1 ≤ m / 10 := by omega
      have hm10' : m / 10 ≤ fuel := by
        have := Nat.div_lt_self (by omega : 0 < m) (by norm_num : 1 < 10)
        omega
      obtain ⟨hk1, hklo, hkhi⟩ := ih (m / 10) hm10 hm10'
      set k := digitsAux fuel (m / 10) with hk
      refine ⟨by omega, ?_, ?_⟩
      · have h3 : 10 * (m / 10) ≤ m := Nat.mul_div_le m 10 |>.trans_eq rfl
        have h4 : 10 * 10 ^ (k - 1) ≤ 10 * (m / 10) := by omega
        have h5 : 10 ^ (1 + k - 1) = 10 * 10 ^ (k - 1) := by
          rw [show 1 + k - 1 = (k - 1) + 1 by omega, pow_succ]
          ring
        omega
      · have h3 : m < 10 * (m / 10) + 10 := by omega
        have h4 : 10 * (m / 10) + 10 ≤ 10 * 10 ^ k := by omega
        have h5 : 10 ^ (1 + k) = 10 * 10 ^ k := by rw [pow_add, pow_one]
        omega

theorem findPowAux_spec :
    ∀ fuel a b, 1 ≤ a → b ≤ a * 10 ^ fuel →
      b ≤ a * 10 ^ findPowAux fuel a b ∧
        ∀ d, d < findPowAux fuel a b → a * 10 ^ d < b := by
  intro fuel
  induction fuel with
  | zero =>
    intro a b ha hb
    rw [findPowAux]
    constructor
    · simpa using hb
    · omega
  | succ fuel ih =>
    intro a b ha hb
    rw [findPowAux]
    split
    · rename_i hba
      refine ⟨by simpa using hba, by omega⟩
    · rename_i hba
      have hb' : b ≤ a * 10 * 10 ^ fuel := by
        rw [mul_assoc, ← pow_succ']
        exact hb
      obtain ⟨h1, h2⟩ := ih (a * 10) b (by omega) hb'
      constructor
      · rw [show a * 10 ^ (1 + findPowAux fuel (a * 10) b) =
          a * 10 * 10 ^ findPowAux fuel (a * 10) b by rw [pow_add]; ring]
        exact h1
      · intro d hd
        rcases Nat.eq_zero_or_pos d with rfl | hdpos
        · simpa using Nat.lt_of_not_le hba
        · have := h2 (d - 1) (by omega)
          have heq : a * 10 ^ d = a * 10 * 10 ^ (d - 1) := by
            conv_lhs => rw [show d = (d - 1) + 1 by omega]
            rw [pow_succ]
            ring
          omega

/-- `decExp` satisfies its characteristic property on positive inputs. -/
theorem decExp_spec (x : ℚ) (hx : 0 < x) :
    (10 : ℚ) ^ decExp x ≤ x ∧ x < (10 : ℚ) ^ (decExp x + 1) := by
  rw [decExp, if_neg (by simpa [not_le] using Rat.num_pos.mpr hx)]
  split
  · rename_i hx1
    have hfl1 : 1 ≤ ⌊x⌋ := Int.floor_pos.mpr hx1
    set m := ⌊x⌋.toNat with hm
    have hm1 : 1 ≤ m := by omega
    have hmfl : (m : ℤ) = ⌊x⌋ := Int.toNat_of_nonneg (by omega)
    obtain ⟨hD1, hlo, hhi⟩ := digitsAux_spec m m hm1 le_rfl
    set D := digitsAux m m with hD
    constructor
    · have hcast : ((D : ℤ) - 1) = ((D - 1 : ℕ) : ℤ) := by omega
      rw [hcast, zpow_natCast]
      calc ((10 : ℚ) ^ (D - 1 : ℕ)) = ((10 ^ (D - 1) : ℕ) : ℚ) := by push_cast; ring
        _ ≤ (m : ℚ) := by exact_mod_cast hlo
        _ = ((⌊x⌋ : ℤ) : ℚ) := by rw [← hmfl]; push_cast; ring
        _ ≤ x := Int.floor_le x
    · have hcast : ((D : ℤ) - 1 + 1) = ((D : ℕ) : ℤ) := by omega
      rw [hcast, zpow_natCast]
      calc x < (⌊x⌋ : ℚ) + 1 := Int.lt_floor_add_one x
        _ = (m : ℚ) + 1 := by rw [← hmfl]; push_cast; ring
        _ ≤ ((10 ^ D : ℕ) : ℚ) := by exact_mod_cast hhi
        _ = (10 : ℚ) ^ D := by push_cast; ring
  · rename_i hx1
    have ha1 : 1 ≤ x.num.toNat := by
      have := Rat.num_pos.mpr hx
      omega
    set a := x.num.toNat with ha
    set b := x.den with hb
    have hbpos : 0 < b := x.den_pos
    have hxab : x = (a : ℚ) / (b : ℚ) := by
      have hnum : ((a : ℤ) : ℚ) = (x.num : ℚ) := by
        rw [ha, Int.toNat_of_nonneg (by have := Rat.num_pos.mpr hx; omega)]
      rw [show ((a : ℚ)) = ((a : ℤ) : ℚ) by push_cast; ring, hnum, hb]
      exact (Rat.num_div_den x).symm
    have hab : a < b := by
      have h1 : (a : ℚ) / (b : ℚ) < 1 := hxab ▸ lt_of_not_le hx1
      have h2 : (a : ℚ) < (b : ℚ) :=
        (div_lt_one (by exact_mod_cast hbpos)).mp h1
      exact_mod_cast h2
    have hfuel : b ≤ a * 10 ^ b := by
      have h1 : b < 10 ^ b := Nat.lt_pow_self (by norm_num) b
      have h2 : 10 ^ b ≤ a * 10 ^ b := Nat.le_mul_of_pos_left _ (by omega)
      omega
    obtain ⟨h1, h2⟩ := findPowAux_spec b a b ha1 hfuel
    rw [findPow] at *
    set d := findPowAux b a b with hd
    have hd1 : 1 ≤ d := by
      by_contra hc
      have hd0 : d = 0 := by omega
      rw [hd0] at h1
      simp at h1
      omega
    have hb10 : (0 : ℚ) < (10 : ℚ) ^ (d : ℤ) := zpow_pos (by norm_num) _
    constructor
    · rw [zpow_neg, hxab]
      rw [inv_le_iff_one_le_mul₀ hb10, zpow_natCast]
      rw [div_mul_eq_mul_div, one_le_div (by exact_mod_cast hbpos)]
      exact_mod_cast h1
    · have h3 : a * 10 ^ (d - 1) < b := h2 (d - 1) (by omega)
      have hcast : (-(d : ℤ) + 1) = -((d - 1 : ℕ) : ℤ) := by omega
      rw [hcast, zpow_neg, hxab, zpow_natCast]
      rw [div_lt_iff (by exact_mod_cast hbpos), inv_mul_eq_div,
        lt_div_iff (by positivity)]
      calc (a : ℚ) * 10 ^ (d - 1 : ℕ) = ((a * 10 ^ (d - 1) : ℕ) : ℚ) := by
            push_cast; ring
        _ < (b : ℚ) := by exact_mod_cast h3

/-- Uniqueness of the decimal exponent: to evaluate `decExp` at a concrete
positive rational it suffices to exhibit `e` with
`10 ^ e ≤ x < 10 ^ (e + 1)`. -/
theorem decExp_eval (x : ℚ) (e : ℤ) (hx : 0 < x)
    (h1 : (10 : ℚ) ^ e ≤ x) (h2 : x < (10 : ℚ) ^ (e + 1)) : decExp x = e := by
  obtain ⟨h3, h4⟩ := decExp_spec x hx
  by_contra hne
  rcases Int.lt_or_lt_of_ne hne with hlt | hlt
  · have : (10 : ℚ) ^ (decExp x + 1) ≤ (10 : ℚ) ^ e :=
      zpow_le_zpow_right₀ (by norm_num) (by omega)
    linarith
  · have : (10 : ℚ) ^ (e + 1) ≤ (10 : ℚ) ^ (decExp x) :=
      zpow_le_zpow_right₀ (by norm_num) (by omega)
    linarith

theorem rhe_eq_floor (x : ℚ) (h : x - (⌊x⌋ : ℚ) < 1 / 2) : rhe x = ⌊x⌋ := by
  simp only [rhe]
  rw [if_pos h]

theorem rhe_eq_ceil (x : ℚ) (h : 1 / 2 < x - (⌊x⌋ : ℚ)) : rhe x = ⌊x⌋ + 1 := by
  simp only [rhe]
  rw [if_neg (by linarith), if_pos h]

theorem rhe_eq_half_even (x : ℚ) (h : x - (⌊x⌋ : ℚ) = 1 / 2)
    (hev : ⌊x⌋ % 2 = 0) : rhe x = ⌊x⌋ := by
  simp only [rhe]
  rw [if_neg (by linarith), if_neg (by linarith), if_pos hev]

theorem rhe_eq_half_odd (x : ℚ) (h : x - (⌊x⌋ : ℚ) = 1 / 2)
    (hev : ¬⌊x⌋ % 2 = 0) : rhe x = ⌊x⌋ + 1 := by
  simp only [rhe]
  rw [if_neg (by linarith), if_neg (by linarith), if_neg hev]

/-- Evaluation rule for `decRound` on a positive rational: exhibit the
exponent `e` and the rounded scaled value `r`. -/
theorem decRound_eval (prec : Nat) (x : ℚ) (e r : ℤ) (hx : 0 < x)
    (h1 : (10 : ℚ) ^ e ≤ x) (h2 : x < (10 : ℚ) ^ (e + 1))
    (hr : rhe (x * (10 : ℚ) ^ ((prec : ℤ) - 1 - e)) = r) :
    decRound prec x = (r : ℚ) * (10 : ℚ) ^ (e - (prec : ℤ) + 1) := by
  rw [decRound, if_neg (by positivity), if_neg (by linarith)]
  simp only [decRoundPos]
  rw [decExp_eval x e hx h1 h2, hr]

/-! ## Concrete decimal evaluations used for the low-precision counterexample -/

theorem dr_two : decRound 1 (2 : ℚ) = 2 := by
  have hr : rhe ((2 : ℚ) * (10:ℚ) ^ ((1:ℤ) - 1 - 0)) = 2 := by
    rw [show (2 : ℚ) * (10:ℚ) ^ ((1:ℤ) - 1 - 0) = 2 by norm_num]
    rw [rhe_eq_floor 2 (by norm_num)]
    norm_num
  rw [decRound_eval 1 2 0 2 (by norm_num) (by norm_num) (by norm_num) hr]
  norm_num

theorem dr_half : decRound 1 (1/2 : ℚ) = 1/2 := by
  have hr : rhe ((1/2 : ℚ) * (10:ℚ) ^ ((1:ℤ) - 1 - (-1))) = 5 := by
    rw [show (1/2 : ℚ) * (10:ℚ) ^ ((1:ℤ) - 1 - (-1)) = 5 by norm_num]
    rw [rhe_eq_floor 5 (by norm_num)]
    norm_num
  rw [decRound_eval 1 (1/2) (-1) 5 (by norm_num) (by norm_num) (by norm_num) hr]
  norm_num

theorem dr_six : decRound 1 (6 : ℚ) = 6 := by
  have hr : rhe ((6 : ℚ) * (10:ℚ) ^ ((1:ℤ) - 1 - 0)) = 6 := by
    rw [show (6 : ℚ) * (10:ℚ) ^ ((1:ℤ) - 1 - 0) = 6 by norm_num]
    rw [rhe_eq_floor 6 (by norm_num)]
    norm_num
  rw [decRound_eval 1 6 0 6 (by norm_num) (by norm_num) (by norm_num) hr]
  norm_num

theorem dr_sixth : decRound 1 (1/6 : ℚ) = 1/5 := by
  have hr : rhe ((1/6 : ℚ) * (10:ℚ) ^ ((1:ℤ) - 1 - (-1))) = 2 := by
    rw [show (1/6 : ℚ) * (10:ℚ) ^ ((1:ℤ) - 1 - (-1)) = 5/3 by norm_num]
    rw [rhe_eq_ceil (5/3) (by norm_num)]
    norm_num
  rw [decRound_eval 1 (1/6) (-1) 2 (by norm_num) (by norm_num) (by norm_num) hr]
  norm_num

theorem dr_seven_tenths : decRound 1 (7/10 : ℚ) = 7/10 := by
  have hr : rhe ((7/10 : ℚ) * (10:ℚ) ^ ((1:ℤ) - 1 - (-1))) = 7 := by
    rw [show (7/10 : ℚ) * (10:ℚ) ^ ((1:ℤ) - 1 - (-1)) = 7 by norm_num]
    rw [rhe_eq_floor 7 (by norm_num)]
    norm_num
  rw [decRound_eval 1 (7/10) (-1) 7 (by norm_num) (by norm_num) (by norm_num) hr]
  norm_num

theorem dr_eight : decRound 1 (8 : ℚ) = 8 := by
  have hr : rhe ((8 : ℚ) * (10:ℚ) ^ ((1:ℤ) - 1 - 0)) = 8 := by
    rw [show (8 : ℚ) * (10:ℚ) ^ ((1:ℤ) - 1 - 0) = 8 by norm_num]
    rw [rhe_eq_floor 8 (by norm_num)]
    norm_num
  rw [decRound_eval 1 8 0 8 (by norm_num) (by norm_num) (by norm_num) hr]
  norm_num

theorem dr_eighth : decRound 1 (1/8 : ℚ) = 1/10 := by
  have hr : rhe ((1/8 : ℚ) * (10:ℚ) ^ ((1:ℤ) - 1 - (-1))) = 1 := by
    rw [show (1/8 : ℚ) * (10:ℚ) ^ ((1:ℤ) - 1 - (-1)) = 5/4 by norm_num]
    rw [rhe_eq_floor (5/4) (by norm_num)]
    norm_num
  rw [decRound_eval 1 (1/8) (-1) 1 (by norm_num) (by norm_num) (by norm_num) hr]
  norm_num

theorem dr_four_fifths : decRound 1 (4/5 : ℚ) = 4/5 := by
  have hr : rhe ((4/5 : ℚ) * (10:ℚ) ^ ((1:ℤ) - 1 - (-1))) = 8 := by
    rw [show (4/5 : ℚ) * (10:ℚ) ^ ((1:ℤ) - 1 - (-1)) = 8 by norm_num]
    rw [rhe_eq_floor 8 (by norm_num)]
    norm_num
  rw [decRound_eval 1 (4/5) (-1) 8 (by norm_num) (by norm_num) (by norm_num) hr]
  norm_num

theorem dr_twenty : decRound 1 (20 : ℚ) = 20 := by
  have hr : rhe ((20 : ℚ) * (10:ℚ) ^ ((1:ℤ) - 1 - 1)) = 2 := by
    rw [show (20 : ℚ) * (10:ℚ) ^ ((1:ℤ) - 1 - 1) = 2 by norm_num]
    rw [rhe_eq_floor 2 (by norm_num)]
    norm_num
  rw [decRound_eval 1 20 1 2 (by norm_num) (by norm_num) (by norm_num) hr]
  norm_num

theorem dr_twentieth : decRound 1 (1/20 : ℚ) = 1/20 := by
  have hr : rhe ((1/20 : ℚ) * (10:ℚ) ^ ((1:ℤ) - 1 - (-2))) = 5 := by
    rw [show (1/20 : ℚ) * (10:ℚ) ^ ((1:ℤ) - 1 - (-2)) = 5 by norm_num]
    rw [rhe_eq_floor 5 (by norm_num)]
    norm_num
  rw [decRound_eval 1 (1/20) (-2) 5 (by norm_num) (by norm_num) (by norm_num) hr]
  norm_num

theorem dr_seventeen_twentieths : decRound 1 (17/20 : ℚ) = 4/5 := by
  have hr : rhe ((17/20 : ℚ) * (10:ℚ) ^ ((1:ℤ) - 1 - (-1))) = 8 := by
    rw [show (17/20 : ℚ) * (10:ℚ) ^ ((1:ℤ) - 1 - (-1)) = 17/2 by norm_num]
    rw [rhe_eq_half_even (17/2) (by norm_num) (by norm_num)]
    norm_num
  rw [decRound_eval 1 (17/20) (-1) 8 (by norm_num) (by norm_num) (by norm_num) hr]
  norm_num

theorem hsd41 : harmonic_sum_decimal 4 1 = 4/5 := by
  have hphi2 : (sieve_phi 4).getD 2 0 = 1 := by
    rw [sieve_phi_getD 4 2 (by norm_num), Nat.totient_prime Nat.prime_two]
  have hphi3 : (sieve_phi 4).getD 3 0 = 2 := by
    rw [sieve_phi_getD 4 3 (by norm_num), Nat.totient_prime Nat.prime_three]
  have hphi4 : (sieve_phi 4).getD 4 0 = 2 := by
    rw [sieve_phi_getD 4 4 (by norm_num), show (4:ℕ) = 2^2 by norm_num,
      Nat.totient_prime_pow Nat.prime_two (by norm_num)]
    norm_num
  simp only [harmonic_sum_decimal, sumRange, show (4:ℕ) - 1 = 3 from rfl,
    show List.range' 2 3 = [2, 3, 4] from rfl,
    List.foldl_cons, List.foldl_nil, hphi2, hphi3, hphi4]
  norm_num [dr_two, dr_half, dr_six, dr_sixth, dr_seven_tenths, dr_eight,
    dr_eighth, dr_four_fifths]

theorem hsd51 : harmonic_sum_decimal 5 1 = 4/5 := by
  have hphi2 : (sieve_phi 5).getD 2 0 = 1 := by
    rw [sieve_phi_getD 5 2 (by norm_num), Nat.totient_prime Nat.prime_two]
  have hphi3 : (sieve_phi 5).getD 3 0 = 2 := by
    rw [sieve_phi_getD 5 3 (by norm_num), Nat.totient_prime Nat.prime_three]
  have hphi4 : (sieve_phi 5).getD 4 0 = 2 := by
    rw [sieve_phi_getD 5 4 (by norm_num), show (4:ℕ) = 2^2 by norm_num,
      Nat.totient_prime_pow Nat.prime_two (by norm_num)]
    norm_num
  have hphi5 : (sieve_phi 5).getD 5 0 = 4 := by
    rw [sieve_phi_getD 5 5 (by norm_num),
      Nat.totient_prime (by norm_num : Nat.Prime 5)]
  simp only [harmonic_sum_decimal, sumRange, show (5:ℕ) - 1 = 4 from rfl,
    show List.range' 2 4 = [2, 3, 4, 5] from rfl,
    List.foldl_cons, List.foldl_nil, hphi2, hphi3, hphi4, hphi5]
  norm_num [dr_two, dr_half, dr_six, dr_sixth, dr_seven_tenths, dr_eight,
    dr_eighth, dr_four_fifths, dr_twenty, dr_twentieth,
    dr_seventeen_twentieths]

/-! ## The per-q envelope loop with an empty table -/

theorem perqLoop_none_fold (N L : ℚ) (fb : Bool) :
    ∀ (ks : List Nat) (a : ℚ) (c : Nat),
      ks.foldl
        (fun (acc : ℚ × Nat) (q : Nat) =>
          match PerQ_Eq (fun _ => none) q N L with
          | .ok Eq => (acc.1 + Eq / ((q : ℚ) * (phi_td q : ℚ)), acc.2)
          | .error _ =>
            (acc.1 + (if fb then E_uniform N L else E_trivial N L) /
               ((q : ℚ) * (phi_td q : ℚ)),
             acc.2 + 1)) (a, c) =
      (a + (ks.map (fun (q : Nat) =>
          (if fb then E_uniform N L else E_trivial N L) /
            ((q : ℚ) * (phi_td q : ℚ)))).sum,
       c + ks.length) := by
  intro ks
  induction ks with
  | nil => intro a c; simp
  | cons q ks ih =>
    intro a c
    rw [List.foldl_cons, show (PerQ_Eq (fun _ => none) q N L) = .error q
      from rfl]
    simp only [List.map_cons, List.sum_cons, List.length_cons]
    rw [ih]
    refine congrArg₂ _ (by ring) (by omega)

/-- The accumulation of `per_q_envelope.__main__` with an empty table: every
`q` falls back, the missing counter counts the whole range, and the sum
factors as the fallback envelope times the harmonic totient sum. -/
theorem perqLoop_none (Qcap : Nat) (N L : ℚ) (fb : Bool) :
    perqLoop (fun _ => none) Qcap N L fb =
      ((if fb then E_uniform N L else E_trivial N L) *
        ∑ q ∈ Finset.Ico 2 (2 + (Qcap - 1)), 1 / ((q : ℚ) * (phi_td q : ℚ)),
       Qcap - 1) := by
  rw [perqLoop, perqLoop_none_fold N L fb, zero_add]
  refine congrArg₂ _ ?_ (by rw [List.length_range']; omega)
  rw [List.map_congr_left
        (g := fun (q : Nat) => (if fb then E_uniform N L else E_trivial N L) *
          (1 / ((q : ℚ) * (phi_td q : ℚ))))
        (fun q _ => by rw [div_eq_mul_one_div]),
    ← sum_map_range' _ 2 (Qcap - 1)]
  exact List.sum_map_mul_left _ _ _

/-! ## Small-input evaluations and the float-mode sum -/

theorem nthRoot_small (n : Nat) (h1 : 1 ≤ n) (h31 : n ≤ 31) :
    nthRootNat n 5 = 1 := by
  refine nthRoot_unique n 5 (nthRootNat n 5) 1
    (nthRootNat_spec n 5 (by norm_num)) ⟨by simpa using h1, ?_⟩
  have h32 : ((1 + 1 : Nat)) ^ 5 = 32 := by norm_num
  omega

theorem nthRootNat_32_5 : nthRootNat 32 5 = 2 :=
  nthRoot_unique 32 5 (nthRootNat 32 5) 2
    (nthRootNat_spec 32 5 (by norm_num)) (by norm_num)

theorem hsf1 : harmonic_sum_fraction 1 = 0 := rfl

theorem hsf2 : harmonic_sum_fraction 2 = 1 / 2 := by
  rw [harmonic_sum_fraction_eq, Finset.Icc_self, Finset.sum_singleton,
    Nat.totient_prime Nat.prime_two]
  norm_num

theorem hsf3 : harmonic_sum_fraction 3 = 2 / 3 := by
  rw [harmonic_sum_fraction_eq, show (3 : ℕ) = 2 + 1 from rfl,
    Finset.sum_Icc_succ_top (by norm_num), Finset.Icc_self,
    Finset.sum_singleton, Nat.totient_prime Nat.prime_two,
    Nat.totient_prime Nat.prime_three]
  norm_num

theorem hsd_one (prec : Nat) : harmonic_sum_decimal 1 prec = 0 := rfl

/-- In fraction mode, every `N` in `[1, 31]` drives `Q` to `1`, both
`S(Q-1)` and `S(Q)` to `0`, and the monotonicity assertion fails. -/
theorem ctm_frac_small_N (N : Int) (h1 : 1 ≤ N) (h31 : N ≤ 31)
    (K Sf CW L R : ℚ) :
    compute_tail_margins_frac N K Sf CW L R =
      .error "Harmonic sum is not strictly increasing" := by
  have hQ : nthRootNat N.toNat 5 = 1 := nthRoot_small N.toNat (by omega) (by omega)
  simp only [compute_tail_margins_frac, hQ]
  rw [if_neg (by omega)]
  norm_num [hsf1]

/-- The same in decimal mode, at any precision and context precision. -/
theorem ctm_dec_small_N (N : Int) (h1 : 1 ≤ N) (h31 : N ≤ 31)
    (K Sf CW : ℚ) (prec : Nat) (L R : ℚ) (ctxPrec : Nat) :
    (compute_tail_margins_dec_st N K Sf CW prec L R ctxPrec).1 =
      .error "Harmonic sum is not strictly increasing in decimal mode" := by
  have hQ : nthRootNat N.toNat 5 = 1 := nthRoot_small N.toNat (by omega) (by omega)
  simp only [compute_tail_margins_dec_st, harmonic_sum_decimal_st, hQ]
  rw [if_neg (by omega)]
  norm_num [hsd_one]

/-- Fraction-mode tail margins at the concrete input `N = 32` with all
float-carried constants `1`. -/
theorem ctm32 : compute_tail_margins_frac 32 1 1 1 1 1 =
    .ok ⟨1, 1, 1, 32, 1, 2, 1, 1 / 2, 32, 1 / 10, 4, 8, 1 / 40⟩ := by
  simp only [compute_tail_margins_frac,
    show ((32 : Int)).toNat = 32 from rfl, nthRootNat_32_5]
  rw [if_neg (by norm_num)]
  rw [if_pos (by norm_num : (1 : Nat) < 2)]
  rw [show (2 : ℕ) - 1 = 1 from rfl, hsf1, hsf2, hsf3]
  rw [if_pos (by norm_num)]
  simp only [tailMargins, E_trivial, E_uniform, Except.ok.injEq,
    TailResult.mk.injEq]
  norm_num

theorem foldl_congr_mem (f g : ℚ → Nat → ℚ) :
    ∀ (L : List Nat) (a : ℚ),
      (∀ (x : ℚ) (q : Nat), q ∈ L → f x q = g x q) →
      L.foldl f a = L.foldl g a := by
  intro L
  induction L with
  | nil => intro a _; rfl
  | cons q L ih =>
    intro a h
    rw [List.foldl_cons, List.foldl_cons, h a q (List.mem_cons_self q L)]
    exact ih _ (fun x p hp => h x p (List.mem_cons_of_mem q hp))

/-- The float-mode sum of `harmonic_sum_phi.py` (idealised over `ℚ`) adds
exactly the same terms as the sieve-based exact sum. -/
theorem harmonic_sum_phi_eq (Q : Nat) :
    harmonic_sum_phi Q = harmonic_sum_fraction Q := by
  simp only [harmonic_sum_phi, harmonic_sum_fraction]
  apply foldl_congr_mem
  intro x q hq
  simp only [sumRange] at hq
  have hq' := List.mem_range'_1.mp hq
  have hqQ : q ≤ Q := by omega
  rw [phi_td_eq_totient, sieve_phi_getD Q q hqQ,
    if_pos (Nat.pos_iff_ne_zero.mp (Nat.totient_pos.mpr (by omega)))]

/-! ## Rounding error analysis — cross-mode agreement of the three sums

Both `decRound prec` and `binRound prec` are instances of one
construction: scale into `[b^(prec-1), b^prec)`, round to the nearest
integer with ties to even, scale back.  The lemmas below bound the error
of one such rounding by half a unit in the last significant digit and
propagate the per-step errors through the shared summation loop. -/

theorem rhe_ge_floor (x : ℚ) : ⌊x⌋ ≤ rhe x := by
  simp only [rhe]
  split_ifs <;> omega

/-- Half-even rounding to an integer moves a value by at most `1/2`. -/
theorem rhe_err (x : ℚ) : |((rhe x : ℤ) : ℚ) - x| ≤ 1 / 2 := by
  have h1 := Int.floor_le x
  have h2 := Int.lt_floor_add_one x
  simp only [rhe]
  split_ifs with ha hb hc <;>
    (rw [abs_le]; push_cast; constructor <;> linarith)

/-- Half-even rounding is exact on integers. -/
theorem rhe_intCast (z : ℤ) : rhe (z : ℚ) = z := by
  simp only [rhe, Int.floor_intCast]
  rw [if_pos (by norm_num)]

/-- Error and positivity of one scaled-`rhe` rounding at base `b`: the
construction shared by `decRoundPos` and `binRoundPos` moves a value
`x ≥ b ^ e` by at most half an ulp `b ^ (e - prec + 1)`, and keeps it
positive when `prec ≥ 1`. -/
theorem roundPos_bound (b : ℚ) (hb : 1 ≤ b) (prec : Nat) (e : ℤ) (x : ℚ)
    (hlo : b ^ e ≤ x) :
    |((rhe (x * b ^ ((prec : ℤ) - 1 - e)) : ℤ) : ℚ) * b ^ (e - (prec : ℤ) + 1) - x|
        ≤ 1 / 2 * b ^ (e - (prec : ℤ) + 1) ∧
      (1 ≤ prec →
        0 < ((rhe (x * b ^ ((prec : ℤ) - 1 - e)) : ℤ) : ℚ) * b ^ (e - (prec : ℤ) + 1)) := by
  have hb0 : (0 : ℚ) < b := by linarith
  have hbne : b ≠ 0 := ne_of_gt hb0
  have hs : (0 : ℚ) < b ^ (e - (prec : ℤ) + 1) := zpow_pos hb0 _
  have hys : x * b ^ ((prec : ℤ) - 1 - e) * b ^ (e - (prec : ℤ) + 1) = x := by
    rw [mul_assoc, ← zpow_add₀ hbne,
      show ((prec : ℤ) - 1 - e) + (e - (prec : ℤ) + 1) = 0 by ring]
    simp
  constructor
  · have key : ((rhe (x * b ^ ((prec : ℤ) - 1 - e)) : ℤ) : ℚ) * b ^ (e - (prec : ℤ) + 1) - x
        = (((rhe (x * b ^ ((prec : ℤ) - 1 - e)) : ℤ) : ℚ) - x * b ^ ((prec : ℤ) - 1 - e)) *
            b ^ (e - (prec : ℤ) + 1) := by
      rw [sub_mul, hys]
    rw [key, abs_mul, abs_of_pos hs]
    exact mul_le_mul_of_nonneg_right (rhe_err _) (le_of_lt hs)
  · intro hp
    have hy1 : (1 : ℚ) ≤ x * b ^ ((prec : ℤ) - 1 - e) := by
      calc (1 : ℚ) = b ^ (0 : ℤ) := by simp
        _ ≤ b ^ ((prec : ℤ) - 1) := zpow_le_zpow_right₀ hb (by omega)
        _ = b ^ e * b ^ ((prec : ℤ) - 1 - e) := by
            rw [← zpow_add₀ hbne, show e + ((prec : ℤ) - 1 - e) = (prec : ℤ) - 1 by ring]
        _ ≤ x * b ^ ((prec : ℤ) - 1 - e) :=
            mul_le_mul_of_nonneg_right hlo (le_of_lt (zpow_pos hb0 _))
    have hfl : 1 ≤ ⌊x * b ^ ((prec : ℤ) - 1 - e)⌋ := Int.le_floor.mpr (by exact_mod_cast hy1)
    have hge := rhe_ge_floor (x * b ^ ((prec : ℤ) - 1 - e))
    have h1 : (1 : ℚ) ≤ ((rhe (x * b ^ ((prec : ℤ) - 1 - e)) : ℤ) : ℚ) := by
      exact_mod_cast (by omega : (1 : ℤ) ≤ rhe (x * b ^ ((prec : ℤ) - 1 - e)))
    exact mul_pos (by linarith) hs

/-- Exactness of the scaled-`rhe` rounding when the scaled value is an
integer (int→float conversions and small integer `Decimal` products are
exact). -/
theorem roundPos_exact (b : ℚ) (hbne : b ≠ 0) (prec : Nat) (e : ℤ) (x : ℚ)
    (hint : ∃ z : ℤ, x * b ^ ((prec : ℤ) - 1 - e) = (z : ℚ)) :
    ((rhe (x * b ^ ((prec : ℤ) - 1 - e)) : ℤ) : ℚ) * b ^ (e - (prec : ℤ) + 1) = x := by
  obtain ⟨z, hz⟩ := hint
  have hys : x * b ^ ((prec : ℤ) - 1 - e) * b ^ (e - (prec : ℤ) + 1) = x := by
    rw [mul_assoc, ← zpow_add₀ hbne,
      show ((prec : ℤ) - 1 - e) + (e - (prec : ℤ) + 1) = 0 by ring]
    simp
  rw [hz, rhe_intCast, ← hz, hys]

/-- Upper bound for `decExp` from an upper bound on the value. -/
theorem decExp_le (x : ℚ) (e : ℤ) (hx : 0 < x) (h : x < (10 : ℚ) ^ (e + 1)) :
    decExp x ≤ e := by
  by_contra hc
  push_neg at hc
  have h2 : (10 : ℚ) ^ (e + 1) ≤ (10 : ℚ) ^ decExp x :=
    zpow_le_zpow_right₀ (by norm_num) (by omega)
  exact absurd (lt_of_lt_of_le h h2) (not_lt.mpr (decExp_spec x hx).1)

/-- Error of `decRound`: at most half a unit in the last of the `prec`
significant digits of a positive value. -/
theorem decRound_err (prec : Nat) (x : ℚ) (hx : 0 < x) :
    |decRound prec x - x| ≤ 1 / 2 * (10 : ℚ) ^ (decExp x - (prec : ℤ) + 1) := by
  rw [decRound, if_neg (by positivity), if_neg (by linarith)]
  simp only [decRoundPos]
  exact (roundPos_bound 10 (by norm_num) prec (decExp x) x (decExp_spec x hx).1).1

/-- `decRound` keeps positive values positive for `prec ≥ 1`. -/
theorem decRound_pos (prec : Nat) (hp : 1 ≤ prec) (x : ℚ) (hx : 0 < x) :
    0 < decRound prec x := by
  rw [decRound, if_neg (by positivity), if_neg (by linarith)]
  simp only [decRoundPos]
  exact (roundPos_bound 10 (by norm_num) prec (decExp x) x (decExp_spec x hx).1).2 hp

/-- Magnitude-relative form of `decRound_err`. -/
theorem decRound_err_of_lt (prec : Nat) (x : ℚ) (e : ℤ) (hx : 0 < x)
    (hlt : x < (10 : ℚ) ^ (e + 1)) :
    |decRound prec x - x| ≤ 1 / 2 * (10 : ℚ) ^ (e - (prec : ℤ) + 1) := by
  refine le_trans (decRound_err prec x hx) ?_
  have h1 := decExp_le x e hx hlt
  have h2 : (10 : ℚ) ^ (decExp x - (prec : ℤ) + 1) ≤ (10 : ℚ) ^ (e - (prec : ℤ) + 1) :=
    zpow_le_zpow_right₀ (by norm_num) (by omega)
  exact mul_le_mul_of_nonneg_left h2 (by norm_num)

/-- `decRound` is exact on natural numbers below `10 ^ prec`. -/
theorem decRound_natCast (prec n : Nat) (h1 : 1 ≤ n) (h2 : n < 10 ^ prec) :
    decRound prec (n : ℚ) = (n : ℚ) := by
  have hn0 : (0 : ℚ) < (n : ℚ) := by exact_mod_cast h1
  have he : decExp (n : ℚ) ≤ (prec : ℤ) - 1 := by
    apply decExp_le _ _ hn0
    rw [show (prec : ℤ) - 1 + 1 = ((prec : ℕ) : ℤ) by omega, zpow_natCast]
    exact_mod_cast h2
  rw [decRound, if_neg (by positivity), if_neg (by linarith)]
  simp only [decRoundPos]
  apply roundPos_exact 10 (by norm_num)
  obtain ⟨d, hd⟩ : ∃ d : ℕ, (prec : ℤ) - 1 - decExp (n : ℚ) = (d : ℤ) :=
    ⟨((prec : ℤ) - 1 - decExp (n : ℚ)).toNat, (Int.toNat_of_nonneg (by omega)).symm⟩
  refine ⟨((n * 10 ^ d : ℕ) : ℤ), ?_⟩
  rw [hd]
  push_cast
  rw [zpow_natCast]

/-- `exp2` satisfies the binary analogue of `decExp_spec`: for `x > 0`,
`2 ^ exp2 x ≤ x < 2 ^ (exp2 x + 1)`. -/
theorem exp2_spec (x : ℚ) (hx : 0 < x) :
    (2 : ℚ) ^ exp2 x ≤ x ∧ x < (2 : ℚ) ^ (exp2 x + 1) := by
  rw [exp2, if_neg (by simpa [not_le] using Rat.num_pos.mpr hx)]
  split
  · rename_i hx1
    have hfl1 : 1 ≤ ⌊x⌋ := Int.floor_pos.mpr hx1
    set m := ⌊x⌋.toNat with hm
    have hm1 : 1 ≤ m := by omega
    have hmfl : (m : ℤ) = ⌊x⌋ := Int.toNat_of_nonneg (by omega)
    constructor
    · rw [zpow_natCast]
      calc ((2 : ℚ) ^ Nat.log 2 m) = ((2 ^ Nat.log 2 m : ℕ) : ℚ) := by push_cast; ring
        _ ≤ (m : ℚ) := by exact_mod_cast Nat.pow_log_le_self 2 (by omega)
        _ = ((⌊x⌋ : ℤ) : ℚ) := by rw [← hmfl]; push_cast; ring
        _ ≤ x := Int.floor_le x
    · have hcast : ((Nat.log 2 m : ℤ) + 1) = ((Nat.log 2 m + 1 : ℕ) : ℤ) := by omega
      rw [hcast, zpow_natCast]
      have hms : m + 1 ≤ 2 ^ (Nat.log 2 m + 1) :=
        Nat.succ_le_of_lt (Nat.lt_pow_succ_log_self (by norm_num) m)
      calc x < (⌊x⌋ : ℚ) + 1 := Int.lt_floor_add_one x
        _ = (m : ℚ) + 1 := by rw [← hmfl]; push_cast; ring
        _ ≤ ((2 ^ (Nat.log 2 m + 1) : ℕ) : ℚ) := by exact_mod_cast hms
        _ = (2 : ℚ) ^ (Nat.log 2 m + 1) := by push_cast; ring
  · rename_i hx1
    have hnum : 1 ≤ x.num.toNat := by
      have := Rat.num_pos.mpr hx
      omega
    set a := x.num.toNat with ha
    set b := x.den with hb
    have hbpos : 0 < b := x.den_pos
    have hxab : x = (a : ℚ) / (b : ℚ) := by
      have hnum2 : ((a : ℤ) : ℚ) = (x.num : ℚ) := by
        rw [ha, Int.toNat_of_nonneg (by have := Rat.num_pos.mpr hx; omega)]
      rw [show ((a : ℚ)) = ((a : ℤ) : ℚ) by push_cast; ring, hnum2, hb]
      exact (Rat.num_div_den x).symm
    have hab : a < b := by
      have h1 : (a : ℚ) / (b : ℚ) < 1 := hxab ▸ lt_of_not_le hx1
      have h2 : (a : ℚ) < (b : ℚ) := (div_lt_one (by exact_mod_cast hbpos)).mp h1
      exact_mod_cast h2
    set c := (b + a - 1) / a with hc
    have hdm := Nat.div_add_mod (b + a - 1) a
    rw [← hc] at hdm
    have hmlt : (b + a - 1) % a < a := Nat.mod_lt _ (by omega)
    have hkey : b ≤ a * c ∧ a * c ≤ b + a - 1 := by
      generalize hA : a * c = A at hdm ⊢
      generalize hM : (b + a - 1) % a = M at hdm hmlt
      omega
    have hc2 : 2 ≤ c := by
      by_contra hcc
      push_neg at hcc
      have h5 : a * c ≤ a * 1 := Nat.mul_le_mul le_rfl (by omega)
      rw [Nat.mul_one] at h5
      have h6 := le_trans hkey.1 h5
      omega
    set k := Nat.clog 2 c with hk
    have hk1 : 0 < k := Nat.clog_pos (by norm_num) (by omega)
    have hck : c ≤ 2 ^ k := Nat.le_pow_clog (by norm_num) c
    have hck2 : 2 ^ (k - 1) < c := by
      have h7 := Nat.pow_pred_clog_lt_self (by norm_num : (1 : ℕ) < 2) (by omega : 1 < c)
      rw [← hk, Nat.pred_eq_sub_one] at h7
      exact h7
    have h1 : b ≤ a * 2 ^ k := le_trans hkey.1 (Nat.mul_le_mul le_rfl hck)
    have h2 : a * 2 ^ (k - 1) < b := by
      have h8 : a * c = a * (c - 1) + a := by
        conv_lhs => rw [show c = (c - 1) + 1 by omega]
        ring
      have h9 : a * (c - 1) ≤ b - 1 := by
        generalize hA : a * (c - 1) = A at h8 ⊢
        generalize hB2 : a * c = B2 at h8 hkey
        omega
      have h10 : a * 2 ^ (k - 1) ≤ a * (c - 1) :=
        Nat.mul_le_mul le_rfl (Nat.le_pred_of_lt hck2)
      exact Nat.lt_of_le_of_lt (le_trans h10 h9) (Nat.sub_lt hbpos Nat.one_pos)
    have hb10 : (0 : ℚ) < (2 : ℚ) ^ (k : ℤ) := zpow_pos (by norm_num) _
    constructor
    · rw [zpow_neg, hxab]
      rw [inv_le_iff_one_le_mul₀ hb10, zpow_natCast]
      rw [div_mul_eq_mul_div, one_le_div (by exact_mod_cast hbpos)]
      exact_mod_cast h1
    · have hcast : (-(k : ℤ) + 1) = -((k - 1 : ℕ) : ℤ) := by omega
      rw [hcast, zpow_neg, hxab, zpow_natCast]
      rw [div_lt_iff₀ (by exact_mod_cast hbpos), inv_mul_eq_div,
        lt_div_iff₀ (by positivity)]
      calc (a : ℚ) * 2 ^ (k - 1 : ℕ) = ((a * 2 ^ (k - 1) : ℕ) : ℚ) := by
            push_cast; ring
        _ < (b : ℚ) := by exact_mod_cast h2

/-- Upper bound for `exp2` from an upper bound on the value. -/
theorem exp2_le (x : ℚ) (e : ℤ) (hx : 0 < x) (h : x < (2 : ℚ) ^ (e + 1)) :
    exp2 x ≤ e := by
  by_contra hc
  push_neg at hc
  have h2 : (2 : ℚ) ^ (e + 1) ≤ (2 : ℚ) ^ exp2 x :=
    zpow_le_zpow_right₀ (by norm_num) (by omega)
  exact absurd (lt_of_lt_of_le h h2) (not_lt.mpr (exp2_spec x hx).1)

/-- Error of `binRound`: at most half a unit in the last of the `prec`
significant bits of a positive value. -/
theorem binRound_err (prec : Nat) (x : ℚ) (hx : 0 < x) :
    |binRound prec x - x| ≤ 1 / 2 * (2 : ℚ) ^ (exp2 x - (prec : ℤ) + 1) := by
  rw [binRound, if_neg (by positivity), if_neg (by linarith)]
  simp only [binRoundPos]
  exact (roundPos_bound 2 (by norm_num) prec (exp2 x) x (exp2_spec x hx).1).1

/-- `binRound` keeps positive values positive for `prec ≥ 1`. -/
theorem binRound_pos (prec : Nat) (hp : 1 ≤ prec) (x : ℚ) (hx : 0 < x) :
    0 < binRound prec x := by
  rw [binRound, if_neg (by positivity), if_neg (by linarith)]
  simp only [binRoundPos]
  exact (roundPos_bound 2 (by norm_num) prec (exp2 x) x (exp2_spec x hx).1).2 hp

/-- Magnitude-relative form of `binRound_err`. -/
theorem binRound_err_of_lt (prec : Nat) (x : ℚ) (e : ℤ) (hx : 0 < x)
    (hlt : x < (2 : ℚ) ^ (e + 1)) :
    |binRound prec x - x| ≤ 1 / 2 * (2 : ℚ) ^ (e - (prec : ℤ) + 1) := by
  refine le_trans (binRound_err prec x hx) ?_
  have h1 := exp2_le x e hx hlt
  have h2 : (2 : ℚ) ^ (exp2 x - (prec : ℤ) + 1) ≤ (2 : ℚ) ^ (e - (prec : ℤ) + 1) :=
    zpow_le_zpow_right₀ (by norm_num) (by omega)
  exact mul_le_mul_of_nonneg_left h2 (by norm_num)

/-- `binRound` is exact on natural numbers below `2 ^ prec` (so the
int→float conversion of `q * ph` in `sieve_phi_sum` is exact). -/
theorem binRound_natCast (prec n : Nat) (h1 : 1 ≤ n) (h2 : n < 2 ^ prec) :
    binRound prec (n : ℚ) = (n : ℚ) := by
  have hn0 : (0 : ℚ) < (n : ℚ) := by exact_mod_cast h1
  have he : exp2 (n : ℚ) ≤ (prec : ℤ) - 1 := by
    apply exp2_le _ _ hn0
    rw [show (prec : ℤ) - 1 + 1 = ((prec : ℕ) : ℤ) by omega, zpow_natCast]
    exact_mod_cast h2
  rw [binRound, if_neg (by positivity), if_neg (by linarith)]
  simp only [binRoundPos]
  apply roundPos_exact 2 (by norm_num)
  obtain ⟨d, hd⟩ : ∃ d : ℕ, (prec : ℤ) - 1 - exp2 (n : ℚ) = (d : ℤ) :=
    ⟨((prec : ℤ) - 1 - exp2 (n : ℚ)).toNat, (Int.toNat_of_nonneg (by omega)).symm⟩
  refine ⟨((n * 2 ^ d : ℕ) : ℤ), ?_⟩
  rw [hd]
  push_cast
  rw [zpow_natCast]

/-- Error propagation through the shared summation loop: if every
rounded term is positive, at most `1`, and within `εt` of its exact
term, and the accumulator rounding `ρ` moves any value in `(0, B + 2)`
by at most `εs` while keeping it positive, then the rounded and the
exact fold differ by at most the initial error plus
`length · (εt + εs)`, as long as the exact partial sums stay at most
`B` and the total error budget stays at most `1`. -/
theorem fold_round_err (ρ : ℚ → ℚ) (term rterm : Nat → ℚ) (εt εs B : ℚ)
    (hεt : 0 ≤ εt) (hεs : 0 ≤ εs)
    (hρ : ∀ x : ℚ, 0 < x → x < B + 2 → |ρ x - x| ≤ εs ∧ 0 < ρ x) :
    ∀ (l : List Nat) (Sr Se E : ℚ),
      (∀ q ∈ l, 0 < rterm q ∧ rterm q ≤ 1 ∧ 0 ≤ term q ∧ |rterm q - term q| ≤ εt) →
      0 ≤ Sr → 0 ≤ Se → |Sr - Se| ≤ E →
      Se + (l.map term).sum ≤ B →
      E + (l.length : ℚ) * (εt + εs) ≤ 1 →
      |l.foldl (fun S q => ρ (S + rterm q)) Sr -
          l.foldl (fun S q => S + term q) Se| ≤ E + (l.length : ℚ) * (εt + εs) := by
  intro l
  induction l with
  | nil =>
    intro Sr Se E _ _ _ hE _ _
    simpa using hE
  | cons q l ih =>
    intro Sr Se E hterm hSr hSe hE hB hbudget
    obtain ⟨htq0, htq1, hte0, hterr⟩ := hterm q (List.mem_cons_self q l)
    have hterms : ∀ r ∈ l,
        0 < rterm r ∧ rterm r ≤ 1 ∧ 0 ≤ term r ∧ |rterm r - term r| ≤ εt :=
      fun r hr => hterm r (List.mem_cons_of_mem q hr)
    have hsum0 : 0 ≤ (l.map term).sum := by
      apply List.sum_nonneg
      intro x hx
      obtain ⟨r, hr, rfl⟩ := List.mem_map.mp hx
      exact (hterms r hr).2.2.1
    simp only [List.map_cons, List.sum_cons] at hB
    have hlencast : (((q :: l).length : ℕ) : ℚ) * (εt + εs)
        = (εt + εs) + (l.length : ℚ) * (εt + εs) := by
      push_cast [List.length_cons]
      ring
    rw [hlencast] at hbudget ⊢
    have hlen0 : (0 : ℚ) ≤ (l.length : ℚ) * (εt + εs) :=
      mul_nonneg (by positivity) (by linarith)
    have habs := abs_le.mp hE
    have habs2 := abs_le.mp hterr
    have hv0 : 0 < Sr + rterm q := add_pos_of_nonneg_of_pos hSr htq0
    have hvlt : Sr + rterm q < B + 2 := by
      have h3 := habs.2
      have h4 := habs2.2
      linarith
    obtain ⟨hρerr, hρpos⟩ := hρ (Sr + rterm q) hv0 hvlt
    have hnewE : |ρ (Sr + rterm q) - (Se + term q)| ≤ E + εt + εs := by
      have h3 : |ρ (Sr + rterm q) - (Se + term q)| ≤
          |ρ (Sr + rterm q) - (Sr + rterm q)| + |Sr + rterm q - (Se + term q)| :=
        abs_sub_le _ _ _
      have h4 : |Sr + rterm q - (Se + term q)| ≤ E + εt := by
        calc |Sr + rterm q - (Se + term q)|
            = |(Sr - Se) + (rterm q - term q)| := by ring_nf
          _ ≤ |Sr - Se| + |rterm q - term q| := abs_add _ _
          _ ≤ E + εt := add_le_add hE hterr
      linarith
    simp only [List.foldl_cons]
    have hres := ih (ρ (Sr + rterm q)) (Se + term q) (E + εt + εs) hterms
      (le_of_lt hρpos) (by linarith) hnewE (by linarith) (by linarith)
    exact le_trans hres (by linarith)

theorem Icc_union_Ioc_eq_Icc_nat (a b c : ℕ) (h1 : a ≤ b) (h2 : b ≤ c) :
    Finset.Icc a b ∪ Finset.Ioc b c = Finset.Icc a c := by
  ext x
  simp only [Finset.mem_union, Finset.mem_Icc, Finset.mem_Ioc]
  omega

theorem Icc_disjoint_Ioc_nat (a b c : ℕ) :
    Disjoint (Finset.Icc a b) (Finset.Ioc b c) := by
  rw [Finset.disjoint_left]
  intro x hx hx2
  simp only [Finset.mem_Icc] at hx
  simp only [Finset.mem_Ioc] at hx2
  omega

/-- Dyadic bound on the plain harmonic tail:
`∑_{q=2}^{2^(m+1)} 1/q ≤ m + 1`. -/
theorem sum_inv_le_dyadic : ∀ m : ℕ,
    ∑ q ∈ Finset.Icc (2 : ℕ) (2 ^ (m + 1)), (1 : ℚ) / q ≤ (m : ℚ) + 1 := by
  intro m
  induction m with
  | zero =>
    rw [show (2 : ℕ) ^ (0 + 1) = 2 by norm_num, Finset.Icc_self, Finset.sum_singleton]
    norm_num
  | succ m ih =>
    have h1 : 2 ≤ 2 ^ (m + 1) := by
      calc 2 = 2 ^ 1 := by norm_num
        _ ≤ 2 ^ (m + 1) := Nat.pow_le_pow_right (by norm_num) (by omega)
    have h2 : 2 ^ (m + 1) ≤ 2 ^ (m + 1 + 1) := Nat.pow_le_pow_right (by norm_num) (by omega)
    have hpow : (0 : ℕ) < 2 ^ (m + 1) := pow_pos (by norm_num) (m + 1)
    have hcard : (Finset.Ioc ((2 : ℕ) ^ (m + 1)) (2 ^ (m + 1 + 1))).card = 2 ^ (m + 1) := by
      rw [Nat.card_Ioc]
      have h3 : 2 ^ (m + 1 + 1) = 2 * 2 ^ (m + 1) := by ring
      omega
    have hblock : ∑ q ∈ Finset.Ioc ((2 : ℕ) ^ (m + 1)) (2 ^ (m + 1 + 1)), (1 : ℚ) / q ≤ 1 := by
      have hle : ∀ q ∈ Finset.Ioc ((2 : ℕ) ^ (m + 1)) (2 ^ (m + 1 + 1)),
          (1 : ℚ) / q ≤ 1 / ((2 ^ (m + 1) : ℕ) : ℚ) := by
        intro q hq
        simp only [Finset.mem_Ioc] at hq
        apply one_div_le_one_div_of_le
        · exact_mod_cast hpow
        · exact_mod_cast le_of_lt hq.1
      have hpos : (0 : ℚ) < ((2 ^ (m + 1) : ℕ) : ℚ) := by exact_mod_cast hpow
      calc ∑ q ∈ Finset.Ioc ((2 : ℕ) ^ (m + 1)) (2 ^ (m + 1 + 1)), (1 : ℚ) / q
          ≤ (Finset.Ioc ((2 : ℕ) ^ (m + 1)) (2 ^ (m + 1 + 1))).card •
              (1 / ((2 ^ (m + 1) : ℕ) : ℚ)) := Finset.sum_le_card_nsmul _ _ _ hle
        _ = ((2 ^ (m + 1) : ℕ) : ℚ) * (1 / ((2 ^ (m + 1) : ℕ) : ℚ)) := by
            rw [hcard, nsmul_eq_mul]
        _ = 1 := by rw [mul_one_div, div_self (ne_of_gt hpos)]
    rw [← Icc_union_Ioc_eq_Icc_nat 2 (2 ^ (m + 1)) (2 ^ (m + 1 + 1)) h1 h2,
      Finset.sum_union (Icc_disjoint_Ioc_nat 2 (2 ^ (m + 1)) (2 ^ (m + 1 + 1)))]
    push_cast
    linarith

/-- Basic facts about an index `q` of the summation range. -/
theorem term_facts (Q q : Nat) (hq : q ∈ sumRange Q) :
    2 ≤ q ∧ q ≤ Q ∧ (sieve_phi Q).getD q 0 = Nat.totient q ∧
      1 ≤ Nat.totient q ∧ Nat.totient q ≤ q := by
  simp only [sumRange] at hq
  have hq2 := List.mem_range'_1.mp hq
  have hqQ : q ≤ Q := by omega
  exact ⟨by omega, hqQ, sieve_phi_getD Q q hqQ, Nat.totient_pos.mpr (by omega),
    Nat.totient_le q⟩

/-- The exact terms of the summation loop total at most `14` for
`Q ≤ 16384 = 2^14`. -/
theorem harmonic_terms_le (Q : Nat) (hQ : Q ≤ 16384) :
    ((sumRange Q).map
        (fun (q : Nat) => 1 / ((q : ℚ) * ((sieve_phi Q).getD q 0 : ℚ)))).sum ≤ 14 := by
  unfold sumRange
  rw [List.map_congr_left
      (g := fun (q : Nat) => 1 / ((q : ℚ) * (Nat.totient q : ℚ)))
      (fun q hq => by
        have hq2 := List.mem_range'_1.mp hq
        rw [sieve_phi_getD Q q (by omega)]),
    sum_map_range']
  have hstep1 : ∑ q ∈ Finset.Ico (2 : ℕ) (2 + (Q - 1)), 1 / ((q : ℚ) * (Nat.totient q : ℚ))
      ≤ ∑ q ∈ Finset.Ico (2 : ℕ) (2 + (Q - 1)), (1 : ℚ) / q := by
    apply Finset.sum_le_sum
    intro q hq
    simp only [Finset.mem_Ico] at hq
    have hq0 : (0 : ℚ) < (q : ℚ) := by exact_mod_cast (by omega : 0 < q)
    apply one_div_le_one_div_of_le hq0
    calc (q : ℚ) = (q : ℚ) * 1 := by ring
      _ ≤ (q : ℚ) * (Nat.totient q : ℚ) := by
          have ht1 : (1 : ℚ) ≤ (Nat.totient q : ℚ) := by
            exact_mod_cast Nat.totient_pos.mpr (by omega)
          exact mul_le_mul_of_nonneg_left ht1 (le_of_lt hq0)
  have hstep2 : ∑ q ∈ Finset.Ico (2 : ℕ) (2 + (Q - 1)), (1 : ℚ) / q
      ≤ ∑ q ∈ Finset.Icc (2 : ℕ) 16384, (1 : ℚ) / q := by
    apply Finset.sum_le_sum_of_subset_of_nonneg
    · intro q hq
      simp only [Finset.mem_Ico] at hq
      simp only [Finset.mem_Icc]
      omega
    · intro q _ _
      positivity
  have hstep3 := sum_inv_le_dyadic 13
  rw [show (2 : ℕ) ^ (13 + 1) = 16384 by norm_num] at hstep3
  have h14 : ((13 : ℕ) : ℚ) + 1 = 14 := by norm_num
  linarith

/-- Bounds on the rounded decimal term of the loop body at
`prec ≥ 9`. -/
theorem dec_term_bounds (Q prec q : Nat) (hQ : Q ≤ 16384) (hp : 9 ≤ prec)
    (hq : q ∈ sumRange Q) :
    0 < decRound prec (1 / decRound prec ((q : ℚ) * ((sieve_phi Q).getD q 0 : ℚ))) ∧
      decRound prec (1 / decRound prec ((q : ℚ) * ((sieve_phi Q).getD q 0 : ℚ))) ≤ 1 ∧
      0 ≤ 1 / ((q : ℚ) * ((sieve_phi Q).getD q 0 : ℚ)) ∧
      |decRound prec (1 / decRound prec ((q : ℚ) * ((sieve_phi Q).getD q 0 : ℚ))) -
          1 / ((q : ℚ) * ((sieve_phi Q).getD q 0 : ℚ))| ≤ 1 / 2 * (10 : ℚ) ^ (-(prec : ℤ)) := by
  obtain ⟨h2, hqQ, hphi, ht1, htq⟩ := term_facts Q q hq
  rw [hphi]
  have hq16 : q ≤ 16384 := le_trans hqQ hQ
  have hprod : (q : ℚ) * (Nat.totient q : ℚ) = ((q * Nat.totient q : ℕ) : ℚ) := by
    push_cast
    ring
  have hprodge : 1 ≤ q * Nat.totient q := by
    calc 1 = 1 * 1 := by norm_num
      _ ≤ q * Nat.totient q := Nat.mul_le_mul (by omega) ht1
  have hprodlt : q * Nat.totient q < 10 ^ prec := by
    calc q * Nat.totient q ≤ 16384 * 16384 := Nat.mul_le_mul hq16 (le_trans htq hq16)
      _ < 10 ^ 9 := by norm_num
      _ ≤ 10 ^ prec := Nat.pow_le_pow_right (by norm_num) hp
  rw [hprod, decRound_natCast prec _ hprodge hprodlt, ← hprod]
  have hq0 : (0 : ℚ) < (q : ℚ) := by exact_mod_cast (by omega : 0 < q)
  have hx0 : 0 < 1 / ((q : ℚ) * (Nat.totient q : ℚ)) := by
    have ht0 : (0 : ℚ) < (Nat.totient q : ℚ) := by exact_mod_cast ht1
    positivity
  have hxhalf : 1 / ((q : ℚ) * (Nat.totient q : ℚ)) ≤ 1 / 2 := by
    apply one_div_le_one_div_of_le (by norm_num)
    calc (2 : ℚ) = 2 * 1 := by ring
      _ ≤ (q : ℚ) * (Nat.totient q : ℚ) :=
          mul_le_mul (by exact_mod_cast h2) (by exact_mod_cast ht1) (by norm_num)
            (le_of_lt hq0)
  have herr := decRound_err_of_lt prec (1 / ((q : ℚ) * (Nat.totient q : ℚ))) (-1) hx0 (by
    rw [show (-1 : ℤ) + 1 = 0 by ring, zpow_zero]
    linarith)
  rw [show (-1 : ℤ) - (prec : ℤ) + 1 = -(prec : ℤ) by ring] at herr
  have h10 : (10 : ℚ) ^ (-(prec : ℤ)) ≤ 1 := by
    calc (10 : ℚ) ^ (-(prec : ℤ)) ≤ (10 : ℚ) ^ (0 : ℤ) :=
        zpow_le_zpow_right₀ (by norm_num) (by omega)
      _ = 1 := zpow_zero 10
  have h11 : 1 / 2 * (10 : ℚ) ^ (-(prec : ℤ)) ≤ 1 / 2 := by
    calc 1 / 2 * (10 : ℚ) ^ (-(prec : ℤ)) ≤ 1 / 2 * 1 :=
        mul_le_mul_of_nonneg_left h10 (by norm_num)
      _ = 1 / 2 := by ring
  have habs := abs_le.mp (le_trans herr h11)
  refine ⟨decRound_pos prec (by omega) _ hx0, ?_, le_of_lt hx0, herr⟩
  have h3 := habs.2
  linarith

/-- Bounds on the rounded float term of the loop body. -/
theorem fl_term_bounds (Q q : Nat) (hQ : Q ≤ 16384) (hq : q ∈ sumRange Q) :
    0 < flRound (1 / flRound ((q : ℚ) * ((sieve_phi Q).getD q 0 : ℚ))) ∧
      flRound (1 / flRound ((q : ℚ) * ((sieve_phi Q).getD q 0 : ℚ))) ≤ 1 ∧
      0 ≤ 1 / ((q : ℚ) * ((sieve_phi Q).getD q 0 : ℚ)) ∧
      |flRound (1 / flRound ((q : ℚ) * ((sieve_phi Q).getD q 0 : ℚ))) -
          1 / ((q : ℚ) * ((sieve_phi Q).getD q 0 : ℚ))| ≤ 1 / 2 ^ 54 := by
  obtain ⟨h2, hqQ, hphi, ht1, htq⟩ := term_facts Q q hq
  rw [hphi]
  simp only [flRound]
  have hq16 : q ≤ 16384 := le_trans hqQ hQ
  have hprod : (q : ℚ) * (Nat.totient q : ℚ) = ((q * Nat.totient q : ℕ) : ℚ) := by
    push_cast
    ring
  have hprodge : 1 ≤ q * Nat.totient q := by
    calc 1 = 1 * 1 := by norm_num
      _ ≤ q * Nat.totient q := Nat.mul_le_mul (by omega) ht1
  have hprodlt : q * Nat.totient q < 2 ^ 53 := by
    calc q * Nat.totient q ≤ 16384 * 16384 := Nat.mul_le_mul hq16 (le_trans htq hq16)
      _ < 2 ^ 53 := by norm_num
  rw [hprod, binRound_natCast 53 _ hprodge hprodlt, ← hprod]
  have hq0 : (0 : ℚ) < (q : ℚ) := by exact_mod_cast (by omega : 0 < q)
  have hx0 : 0 < 1 / ((q : ℚ) * (Nat.totient q : ℚ)) := by
    have ht0 : (0 : ℚ) < (Nat.totient q : ℚ) := by exact_mod_cast ht1
    positivity
  have hxhalf : 1 / ((q : ℚ) * (Nat.totient q : ℚ)) ≤ 1 / 2 := by
    apply one_div_le_one_div_of_le (by norm_num)
    calc (2 : ℚ) = 2 * 1 := by ring
      _ ≤ (q : ℚ) * (Nat.totient q : ℚ) :=
          mul_le_mul (by exact_mod_cast h2) (by exact_mod_cast ht1) (by norm_num)
            (le_of_lt hq0)
  have herr := binRound_err_of_lt 53 (1 / ((q : ℚ) * (Nat.totient q : ℚ))) (-1) hx0 (by
    rw [show (-1 : ℤ) + 1 = 0 by ring, zpow_zero]
    linarith)
  have herr2 : |binRound 53 (1 / ((q : ℚ) * (Nat.totient q : ℚ))) -
      1 / ((q : ℚ) * (Nat.totient q : ℚ))| ≤ 1 / 2 ^ 54 :=
    le_trans herr (by norm_num)
  have habs := abs_le.mp herr2
  refine ⟨binRound_pos 53 (by norm_num) _ hx0, ?_, le_of_lt hx0, herr2⟩
  have h3 := habs.2
  have h4 : (1 : ℚ) / 2 ^ 54 ≤ 1 / 2 := by norm_num
  linarith

/-- Accumulator rounding bound for the decimal sum: on `(0, 16)` the
error is at most half a unit in the digit of weight `10^(2-prec)`. -/
theorem decRound_sum_bound (prec : Nat) (hp : 9 ≤ prec) (x : ℚ) (hx : 0 < x)
    (hxlt : x < 16) :
    |decRound prec x - x| ≤ 1 / 2 * (10 : ℚ) ^ ((2 : ℤ) - (prec : ℤ)) ∧
      0 < decRound prec x := by
  constructor
  · have herr := decRound_err_of_lt prec x 1 hx (by
      rw [show (1 : ℤ) + 1 = 2 by ring]
      calc x < 16 := hxlt
        _ ≤ (10 : ℚ) ^ (2 : ℤ) := by norm_num)
    rw [show (1 : ℤ) - (prec : ℤ) + 1 = (2 : ℤ) - (prec : ℤ) by ring] at herr
    exact herr
  · exact decRound_pos prec (by omega) x hx

/-- Accumulator rounding bound for the float sum: on `(0, 16)` the
binary64 error is at most `2^-50`. -/
theorem flRound_sum_bound (x : ℚ) (hx : 0 < x) (hxlt : x < 16) :
    |flRound x - x| ≤ 1 / 2 ^ 50 ∧ 0 < flRound x := by
  simp only [flRound]
  constructor
  · have herr := binRound_err_of_lt 53 x 3 hx (by
      rw [show (3 : ℤ) + 1 = 4 by ring]
      calc x < 16 := hxlt
        _ ≤ (2 : ℚ) ^ (4 : ℤ) := by norm_num)
    exact le_trans herr (by norm_num)
  · exact binRound_pos 53 (by norm_num) x hx

/-- The float component of `sieve_phi_sum`, uniformly over `Q` (at
`Q = 0` both sides are `0`). -/
theorem sieve_phi_sum_snd (Q : Nat) :
    (sieve_phi_sum Q).2 = (sumRange Q).foldl
      (fun (S : ℚ) (q : Nat) =>
        flRound (S + flRound (1 / flRound ((q : ℚ) * ((sieve_phi Q).getD q 0 : ℚ))))) 0 := by
  rw [sieve_phi_sum]
  split
  · rename_i h
    have hQ0 : Q = 0 := by omega
    subst hQ0
    rfl
  · rfl

/-- The decimal sum at `prec ≥ 9` digits is within
`16384 · ((1/2)·10^(-prec) + (1/2)·10^(2-prec))` of the exact fraction
sum, for every `Q ≤ 16384`. -/
theorem harmonic_sum_decimal_close (Q prec : Nat) (hQ : Q ≤ 16384) (hp : 9 ≤ prec) :
    |harmonic_sum_decimal Q prec - harmonic_sum_fraction Q| ≤
      16384 * (1 / 2 * (10 : ℚ) ^ (-(prec : ℤ)) + 1 / 2 * (10 : ℚ) ^ ((2 : ℤ) - (prec : ℤ))) := by
  have hεt : (0 : ℚ) ≤ 1 / 2 * (10 : ℚ) ^ (-(prec : ℤ)) := by positivity
  have hεs : (0 : ℚ) ≤ 1 / 2 * (10 : ℚ) ^ ((2 : ℤ) - (prec : ℤ)) := by positivity
  have hlen : ((sumRange Q).length : ℚ) ≤ 16384 := by
    simp only [sumRange, List.length_range']
    exact_mod_cast (by omega : Q - 1 ≤ 16384)
  have hsmall : 1 / 2 * (10 : ℚ) ^ (-(prec : ℤ)) + 1 / 2 * (10 : ℚ) ^ ((2 : ℤ) - (prec : ℤ))
      ≤ (10 : ℚ) ^ (-(7 : ℤ)) := by
    have h1 : (10 : ℚ) ^ (-(prec : ℤ)) ≤ (10 : ℚ) ^ (-(7 : ℤ)) :=
      zpow_le_zpow_right₀ (by norm_num) (by omega)
    have h2 : (10 : ℚ) ^ ((2 : ℤ) - (prec : ℤ)) ≤ (10 : ℚ) ^ (-(7 : ℤ)) :=
      zpow_le_zpow_right₀ (by norm_num) (by omega)
    calc 1 / 2 * (10 : ℚ) ^ (-(prec : ℤ)) + 1 / 2 * (10 : ℚ) ^ ((2 : ℤ) - (prec : ℤ))
        ≤ 1 / 2 * (10 : ℚ) ^ (-(7 : ℤ)) + 1 / 2 * (10 : ℚ) ^ (-(7 : ℤ)) :=
          add_le_add (mul_le_mul_of_nonneg_left h1 (by norm_num))
            (mul_le_mul_of_nonneg_left h2 (by norm_num))
      _ = (10 : ℚ) ^ (-(7 : ℤ)) := by ring
  have hbudget : (0 : ℚ) + ((sumRange Q).length : ℚ) *
      (1 / 2 * (10 : ℚ) ^ (-(prec : ℤ)) + 1 / 2 * (10 : ℚ) ^ ((2 : ℤ) - (prec : ℤ))) ≤ 1 := by
    rw [zero_add]
    calc ((sumRange Q).length : ℚ) *
        (1 / 2 * (10 : ℚ) ^ (-(prec : ℤ)) + 1 / 2 * (10 : ℚ) ^ ((2 : ℤ) - (prec : ℤ)))
        ≤ 16384 * (10 : ℚ) ^ (-(7 : ℤ)) :=
          mul_le_mul hlen hsmall (by positivity) (by norm_num)
      _ ≤ 1 := by norm_num
  have hmain := fold_round_err (decRound prec)
    (fun (q : Nat) => 1 / ((q : ℚ) * ((sieve_phi Q).getD q 0 : ℚ)))
    (fun (q : Nat) => decRound prec (1 / decRound prec ((q : ℚ) * ((sieve_phi Q).getD q 0 : ℚ))))
    (1 / 2 * (10 : ℚ) ^ (-(prec : ℤ))) (1 / 2 * (10 : ℚ) ^ ((2 : ℤ) - (prec : ℤ))) 14
    hεt hεs
    (fun x hx hxlt => decRound_sum_bound prec hp x hx (by linarith))
    (sumRange Q) 0 0 0
    (fun q hq => dec_term_bounds Q prec q hQ hp hq)
    le_rfl le_rfl (by simp)
    (by simpa using harmonic_terms_le Q hQ)
    hbudget
  have hdec : harmonic_sum_decimal Q prec = (sumRange Q).foldl
      (fun (S : ℚ) (q : Nat) =>
        decRound prec (S + decRound prec (1 / decRound prec
          ((q : ℚ) * ((sieve_phi Q).getD q 0 : ℚ))))) 0 := rfl
  have hfrac : harmonic_sum_fraction Q = (sumRange Q).foldl
      (fun (S : ℚ) (q : Nat) => S + 1 / ((q : ℚ) * ((sieve_phi Q).getD q 0 : ℚ))) 0 := rfl
  rw [hdec, hfrac]
  simp only [] at hmain
  refine le_trans hmain ?_
  rw [zero_add]
  exact mul_le_mul_of_nonneg_right hlen (by positivity)

/-- The float sum is within `16384 · (1/2^54 + 1/2^50)` of the exact
fraction sum, for every `Q ≤ 16384`. -/
theorem sieve_phi_sum_close (Q : Nat) (hQ : Q ≤ 16384) :
    |(sieve_phi_sum Q).2 - harmonic_sum_fraction Q| ≤ 16384 * (1 / 2 ^ 54 + 1 / 2 ^ 50) := by
  have hεt : (0 : ℚ) ≤ 1 / 2 ^ 54 := by positivity
  have hεs : (0 : ℚ) ≤ 1 / 2 ^ 50 := by positivity
  have hlen : ((sumRange Q).length : ℚ) ≤ 16384 := by
    simp only [sumRange, List.length_range']
    exact_mod_cast (by omega : Q - 1 ≤ 16384)
  have hbudget : (0 : ℚ) + ((sumRange Q).length : ℚ) * (1 / 2 ^ 54 + 1 / 2 ^ 50) ≤ 1 := by
    rw [zero_add]
    calc ((sumRange Q).length : ℚ) * (1 / 2 ^ 54 + 1 / 2 ^ 50)
        ≤ 16384 * (1 / 2 ^ 54 + 1 / 2 ^ 50) :=
          mul_le_mul_of_nonneg_right hlen (by positivity)
      _ ≤ 1 := by norm_num
  have hmain := fold_round_err flRound
    (fun (q : Nat) => 1 / ((q : ℚ) * ((sieve_phi Q).getD q 0 : ℚ)))
    (fun (q : Nat) => flRound (1 / flRound ((q : ℚ) * ((sieve_phi Q).getD q 0 : ℚ))))
    (1 / 2 ^ 54) (1 / 2 ^ 50) 14 hεt hεs
    (fun x hx hxlt => flRound_sum_bound x hx (by linarith))
    (sumRange Q) 0 0 0
    (fun q hq => fl_term_bounds Q q hQ hq)
    le_rfl le_rfl (by simp)
    (by simpa using harmonic_terms_le Q hQ)
    hbudget
  have hfl : (sieve_phi_sum Q).2 = (sumRange Q).foldl
      (fun (S : ℚ) (q : Nat) =>
        flRound (S + flRound (1 / flRound ((q : ℚ) * ((sieve_phi Q).getD q 0 : ℚ))))) 0 :=
    sieve_phi_sum_snd Q
  have hfrac2 : harmonic_sum_fraction Q = (sumRange Q).foldl
      (fun (S : ℚ) (q : Nat) => S + 1 / ((q : ℚ) * ((sieve_phi Q).getD q 0 : ℚ))) 0 := rfl
  rw [hfl, hfrac2]
  simp only [] at hmain
  refine le_trans hmain ?_
  rw [zero_add]
  exact mul_le_mul_of_nonneg_right hlen (by positivity)


/-! ## Claim theorems -/

/-- C1: for every integer `Q ≥ 0`, `sieve_phi(Q)` returns a list of length
`Q + 1` whose entry `n` equals Euler's totient `φ(n)` for every `n` in
`[0, Q]` (entry `0` is `0`), where `φ` satisfies the reference definition:
`φ(1) = 1`, `φ(p) = p - 1` for prime `p`, `φ(p^k) = p^k - p^(k-1)`, and `φ`
is multiplicative on coprime arguments. -/
theorem claim_C1_sieve_phi_totient :
    ∀ Q : Nat,
      (sieve_phi Q).length = Q + 1 ∧
      (∀ n, n ≤ Q → (sieve_phi Q).getD n 0 = Nat.totient n) ∧
      (sieve_phi Q).getD 0 0 = 0 ∧
      Nat.totient 1 = 1 ∧
      (∀ p, p.Prime → Nat.totient p = p - 1) ∧
      (∀ p k, p.Prime → 1 ≤ k →
        Nat.totient (p ^ k) = p ^ k - p ^ (k - 1)) ∧
      (∀ a b, Nat.Coprime a b →
        Nat.totient (a * b) = Nat.totient a * Nat.totient b) := by
  intro Q
  refine ⟨sieve_phi_length Q, fun n hn => sieve_phi_getD Q n hn, ?_,
    Nat.totient_one, fun p hp => Nat.totient_prime hp, ?_,
    fun a b hab => Nat.totient_mul hab⟩
  · rw [sieve_phi_getD Q 0 (by omega), Nat.totient_zero]
  · intro p k hp hk
    rw [Nat.totient_prime_pow hp (by omega), Nat.mul_sub, mul_one]
    congr 1
    conv_rhs => rw [show k = (k - 1) + 1 by omega]
    rw [pow_succ]

/-- C2: for every `N ≥ 0` and `k ≥ 1`, `int_nth_root_floor(N, k)` returns
(without raising) the unique integer `r ≥ 0` with `r^k ≤ N < (r+1)^k`; in
particular the result is `0` at `N = 0` and `1` at `N = 1`. -/
theorem claim_C2_int_nth_root_floor :
    ∀ (N k : Int), 0 ≤ N → 0 < k →
      int_nth_root_floor N k = .ok (nthRootNat N.toNat k.toNat) ∧
      ((nthRootNat N.toNat k.toNat : Int) ^ k.toNat ≤ N ∧
        N < ((nthRootNat N.toNat k.toNat : Int) + 1) ^ k.toNat) ∧
      (∀ r : Nat, r ^ k.toNat ≤ N.toNat → N.toNat < (r + 1) ^ k.toNat →
        r = nthRootNat N.toNat k.toNat) ∧
      nthRootNat 0 k.toNat = 0 ∧ nthRootNat 1 k.toNat = 1 := by
  intro N k hN hk
  have hk1 : 1 ≤ k.toNat := by omega
  obtain ⟨hlo, hhi⟩ := nthRootNat_spec N.toNat k.toNat hk1
  have hNt : ((N.toNat : Int)) = N := Int.toNat_of_nonneg hN
  refine ⟨?_, ⟨?_, ?_⟩, ?_, rfl, rfl⟩
  · rw [int_nth_root_floor, if_neg (by omega)]
  · calc ((nthRootNat N.toNat k.toNat : Int)) ^ k.toNat
        = ((nthRootNat N.toNat k.toNat ^ k.toNat : Nat) : Int) := by push_cast; ring
      _ ≤ ((N.toNat : Int)) := by exact_mod_cast hlo
      _ = N := hNt
  · calc N = ((N.toNat : Int)) := hNt.symm
      _ < (((nthRootNat N.toNat k.toNat + 1) ^ k.toNat : Nat) : Int) := by
          exact_mod_cast hhi
      _ = ((nthRootNat N.toNat k.toNat : Int) + 1) ^ k.toNat := by push_cast; ring
  · intro r hr1 hr2
    exact nthRoot_unique N.toNat k.toNat r (nthRootNat N.toNat k.toNat)
      ⟨hr1, hr2⟩ ⟨hlo, hhi⟩

theorem claim_C2_witness : int_nth_root_floor 32 5 = .ok 2 := by
  have h := claim_C2_int_nth_root_floor 32 5 (by norm_num) (by norm_num)
  rw [h.1, show ((32 : Int)).toNat = 32 from rfl,
    show ((5 : Int)).toNat = 5 from rfl, nthRootNat_32_5]
  norm_num

/-- C3 counterexample: in decimal mode at fixed precision `1`, the sum is
not strictly increasing at `Q = 5`: `S(4)` and `S(5)` are both `0.8`, so
the claimed strict inequality `S(Q-1) < S(Q)` fails. -/
theorem claim_C3_counterexample :
    harmonic_sum_decimal 4 1 = harmonic_sum_decimal 5 1 ∧
    ¬(harmonic_sum_decimal 4 1 < harmonic_sum_decimal 5 1) := by
  rw [hsd41, hsd51]
  exact ⟨rfl, lt_irrefl _⟩

/-- C3 (amended): in the exact fraction mode the strict monotonicity
`S(Q-1) < S(Q) < S(Q+1)` holds for every `Q ≥ 2`, because every added term
`1/(q·φ(q))` is strictly positive; `harmonic_sum_fraction` is strictly
increasing on `Q ≥ 1`. -/
theorem claim_C3_fraction_monotone :
    ∀ Q : Nat, 2 ≤ Q →
      harmonic_sum_fraction (Q - 1) < harmonic_sum_fraction Q ∧
      harmonic_sum_fraction Q < harmonic_sum_fraction (Q + 1) := by
  intro Q hQ
  constructor
  · have h := harmonic_sum_fraction_lt_succ (Q - 1) (by omega)
    rwa [show Q - 1 + 1 = Q by omega] at h
  · exact harmonic_sum_fraction_lt_succ Q (by omega)

theorem claim_C3_witness :
    harmonic_sum_fraction 1 < harmonic_sum_fraction 2 ∧
    harmonic_sum_fraction 2 < harmonic_sum_fraction 3 := by
  have h := claim_C3_fraction_monotone 2 le_rfl
  simpa using h

/-- C4: the tail of `main` returns exit status `0` exactly when both
`ratio_trivial < 1e-3` and `ratio_uniform < 1e-8` hold in the computed
result, and a distinct status `2` otherwise; monotonicity assertion
failures inside `compute_tail_margins` and baseline assertion failures
abort with an error before any result-based exit status. -/
theorem claim_C4_main_exit :
    ∀ (N : Int) (K Sf CW L R : ℚ) (bfail : Bool) (r : TailResult),
      (compute_tail_margins_frac N K Sf CW L R = .ok r → bfail = false →
        (mainRun N K Sf CW L R bfail = .ok 0 ↔
          (r.ratio_trivial < 1 / 1000 ∧ r.ratio_uniform < 1 / 100000000)) ∧
        (¬(r.ratio_trivial < 1 / 1000 ∧ r.ratio_uniform < 1 / 100000000) →
          mainRun N K Sf CW L R bfail = .ok 2) ∧
        (∀ n, mainRun N K Sf CW L R bfail = .ok n → n = 0 ∨ n = 2)) ∧
      (∀ e, compute_tail_margins_frac N K Sf CW L R = .error e →
        mainRun N K Sf CW L R bfail = .error e) ∧
      (compute_tail_margins_frac N K Sf CW L R = .ok r → bfail = true →
        mainRun N K Sf CW L R bfail = .error "S(Q) mismatch") := by
  intro N K Sf CW L R bfail r
  refine ⟨?_, ?_, ?_⟩
  · intro hok hb
    subst hb
    have hrun : mainRun N K Sf CW L R false = .ok (mainExitCode r) := by
      rw [mainRun, hok]
      rfl
    rw [hrun, mainExitCode]
    by_cases hc : r.ratio_trivial < 1 / 1000 ∧ r.ratio_uniform < 1 / 100000000
    · rw [if_pos hc]
      exact ⟨⟨fun _ => hc, fun _ => rfl⟩, fun h => absurd hc h,
        fun n hn => Or.inl (Except.ok.inj hn).symm⟩
    · rw [if_neg hc]
      exact ⟨⟨fun h => absurd (Except.ok.inj h) (by norm_num),
        fun h => absurd h hc⟩, fun _ => rfl,
        fun n hn => Or.inr (Except.ok.inj hn).symm⟩
  · intro e herr
    rw [mainRun, herr]
    rfl
  · intro hok hb
    subst hb
    rw [mainRun, hok]
    rfl

theorem claim_C4_witness : mainRun 32 1 1 1 1 1 false = .ok 2 := by
  have h := (claim_C4_main_exit 32 1 1 1 1 1 false
    ⟨1, 1, 1, 32, 1, 2, 1, 1 / 2, 32, 1 / 10, 4, 8, 1 / 40⟩).1 ctm32 rfl
  exact h.2.1 (by norm_num)

/-- C5: cross-mode agreement of the three summation strategies.  For
every `Q` up to `10000`, the binary64 float sum returned by
`sieve_phi_sum` is within `10^-10` of the 50-digit decimal sum, and the
120-digit decimal sum is within `10^-20` of the exact fraction sum
(both hold by a wide margin: the proved error bounds are about
`3·10^-11` and `10^-113`). -/
theorem claim_C5_cross_mode_agreement (Q : Nat) (hQ : Q ≤ 10000) :
    |(sieve_phi_sum Q).2 - harmonic_sum_decimal Q 50| < 1 / 10 ^ 10 ∧
    |harmonic_sum_decimal Q 120 - harmonic_sum_fraction Q| < 1 / 10 ^ 20 := by
  have hQ2 : Q ≤ 16384 := by omega
  have hfl := sieve_phi_sum_close Q hQ2
  have hd50 := harmonic_sum_decimal_close Q 50 hQ2 (by norm_num)
  have hd120 := harmonic_sum_decimal_close Q 120 hQ2 (by norm_num)
  constructor
  · have hb1 : (16384 : ℚ) * (1 / 2 ^ 54 + 1 / 2 ^ 50) ≤ 1 / 2 ^ 35 := by norm_num
    have hb2 : (16384 : ℚ) *
        (1 / 2 * (10 : ℚ) ^ (-((50 : ℕ) : ℤ)) + 1 / 2 * (10 : ℚ) ^ ((2 : ℤ) - ((50 : ℕ) : ℤ)))
        ≤ 1 / 10 ^ 44 := by norm_num
    have hA : |(sieve_phi_sum Q).2 - harmonic_sum_fraction Q| ≤ 1 / 2 ^ 35 :=
      le_trans hfl hb1
    have hB : |harmonic_sum_fraction Q - harmonic_sum_decimal Q 50| ≤ 1 / 10 ^ 44 := by
      rw [abs_sub_comm]
      exact le_trans hd50 hb2
    calc |(sieve_phi_sum Q).2 - harmonic_sum_decimal Q 50|
        ≤ |(sieve_phi_sum Q).2 - harmonic_sum_fraction Q| +
            |harmonic_sum_fraction Q - harmonic_sum_decimal Q 50| := abs_sub_le _ _ _
      _ ≤ 1 / 2 ^ 35 + 1 / 10 ^ 44 := add_le_add hA hB
      _ < 1 / 10 ^ 10 := by norm_num
  · have hb3 : (16384 : ℚ) *
        (1 / 2 * (10 : ℚ) ^ (-((120 : ℕ) : ℤ)) + 1 / 2 * (10 : ℚ) ^ ((2 : ℤ) - ((120 : ℕ) : ℤ)))
        ≤ 1 / 10 ^ 113 := by norm_num
    calc |harmonic_sum_decimal Q 120 - harmonic_sum_fraction Q|
        ≤ 1 / 10 ^ 113 := le_trans hd120 hb3
      _ < 1 / 10 ^ 20 := by norm_num

/-- C5 witness: the cross-mode agreement theorem applied at `Q = 100`,
its hypothesis `100 ≤ 10000` discharged concretely. -/
theorem claim_C5_witness :
    (100 : Nat) ≤ 10000 ∧
      (|(sieve_phi_sum 100).2 - harmonic_sum_decimal 100 50| < 1 / 10 ^ 10 ∧
        |harmonic_sum_decimal 100 120 - harmonic_sum_fraction 100| < 1 / 10 ^ 20) :=
  ⟨by norm_num, claim_C5_cross_mode_agreement 100 (by norm_num)⟩

/-- C6: `int_nth_root_floor` raises exactly when `N < 0` or `k ≤ 0`, and
`sieve_phi` raises exactly when `Q < 0`; otherwise both succeed. -/
theorem claim_C6_invalid_arguments :
    ∀ (n k Q : Int),
      ((∃ e, int_nth_root_floor n k = .error e) ↔ (n < 0 ∨ k ≤ 0)) ∧
      (¬(n < 0 ∨ k ≤ 0) →
        int_nth_root_floor n k = .ok (nthRootNat n.toNat k.toNat)) ∧
      ((∃ e, sieve_phi_checked Q = .error e) ↔ Q < 0) ∧
      (¬Q < 0 → sieve_phi_checked Q = .ok (sieve_phi Q.toNat)) := by
  intro n k Q
  refine ⟨⟨?_, ?_⟩, ?_, ⟨?_, ?_⟩, ?_⟩
  · intro ⟨e, he⟩
    by_contra hc
    rw [int_nth_root_floor, if_neg hc] at he
    cases he
  · intro hc
    exact ⟨_, by rw [int_nth_root_floor, if_pos hc]⟩
  · intro hc
    rw [int_nth_root_floor, if_neg hc]
  · intro ⟨e, he⟩
    by_contra hc
    rw [sieve_phi_checked, if_neg hc] at he
    cases he
  · intro hc
    exact ⟨_, by rw [sieve_phi_checked, if_pos hc]⟩
  · intro hc
    rw [sieve_phi_checked, if_neg hc]

/-- C7: with an empty per-q override table and `Qcap = 1000`, every
`q ∈ [2, 1000]` misses the table, the missing counter is `999`, and the
accumulated EMA is the pure fallback-formula value
`(C_W/R) · E_fallback(N, L) · Σ_{q=2}^{1000} 1/(q·φ(q))`. -/
theorem claim_C7_perq_missing :
    ∀ (N L CW R : ℚ) (fb : Bool),
      perqMain (fun _ => none) 1000 N L fb CW R =
        (CW / R * ((if fb then E_uniform N L else E_trivial N L) *
          ∑ q ∈ Finset.Icc (2 : ℕ) 1000, 1 / ((q : ℚ) * (phi_td q : ℚ))), 999) := by
  intro N L CW R fb
  rw [perqMain, perqLoop_none]
  rw [show 2 + (1000 - 1) = Nat.succ 1000 from rfl, Nat.Ico_succ_right]

/-- C8: every integer `N` with `1 ≤ N ≤ 31` (so `Q = ⌊N^(1/5)⌋ = 1`) makes
`compute_tail_margins` raise the monotonicity `AssertionError` in both the
fraction and the decimal method, because `S(Q-1) = S(Q) = 0`. -/
theorem claim_C8_small_N_assertion :
    ∀ (N : Int) (K Sf CW L R : ℚ) (prec ctxPrec : Nat),
      1 ≤ N → N ≤ 31 →
      nthRootNat N.toNat 5 = 1 ∧
      compute_tail_margins_frac N K Sf CW L R =
        .error "Harmonic sum is not strictly increasing" ∧
      (compute_tail_margins_dec_st N K Sf CW prec L R ctxPrec).1 =
        .error "Harmonic sum is not strictly increasing in decimal mode" := by
  intro N K Sf CW L R prec ctxPrec h1 h31
  exact ⟨nthRoot_small N.toNat (by omega) (by omega),
    ctm_frac_small_N N h1 h31 K Sf CW L R,
    ctm_dec_small_N N h1 h31 K Sf CW prec L R ctxPrec⟩

theorem claim_C8_witness :
    nthRootNat ((31 : Int)).toNat 5 = 1 ∧
    compute_tail_margins_frac 31 10 (6 / 5) 2 (7 / 2) 8 =
      .error "Harmonic sum is not strictly increasing" ∧
    (compute_tail_margins_dec_st 31 10 (6 / 5) 2 50 (7 / 2) 8 28).1 =
      .error "Harmonic sum is not strictly increasing in decimal mode" :=
  claim_C8_small_N_assertion 31 10 (6 / 5) 2 (7 / 2) 8 50 28
    (by norm_num) (by norm_num)

/-- C9: the trial-division totient of `harmonic_sum_phi.py` agrees with the
sieve of `replicate_tail.py` on every entry, and consequently the
(rational-idealised) float-mode sum `harmonic_sum_phi` adds exactly the
same terms as the sieve-based exact sum. -/
theorem claim_C9_phi_agreement :
    ∀ Q n : Nat,
      phi_td n = Nat.totient n ∧
      (n ≤ Q → phi_td n = (sieve_phi Q).getD n 0) ∧
      harmonic_sum_phi Q = harmonic_sum_fraction Q := by
  intro Q n
  refine ⟨phi_td_eq_totient n, fun hn => ?_, harmonic_sum_phi_eq Q⟩
  rw [phi_td_eq_totient n, sieve_phi_getD Q n hn]

/-- C10: calling `harmonic_sum_decimal` sets the process-global decimal
context precision to `prec` and does not restore the previous value,
whatever it was; `compute_tail_margins` shields itself only by wrapping the
calls in `localcontext`, which restores the ambient precision on exit. -/
theorem claim_C10_decimal_context :
    ∀ (Q prec ctxPrec : Nat) (N : Int) (K Sf CW L R : ℚ),
      (harmonic_sum_decimal_st Q prec ctxPrec).2 = prec ∧
      (harmonic_sum_decimal_st Q prec ctxPrec).1 = harmonic_sum_decimal Q prec ∧
      (compute_tail_margins_dec_st N K Sf CW prec L R ctxPrec).2 = ctxPrec := by
  intro Q prec ctxPrec N K Sf CW L R
  refine ⟨rfl, rfl, ?_⟩
  simp only [compute_tail_margins_dec_st]
  split
  · rfl
  · rw [apply_ite Prod.snd, ite_self]

end Goldbach

